import Mathlib

/-! # musikcube audio `Buffer` (src/core/audio/Buffer.cpp)

A shallow embedding of `musik::core::audio::Buffer`.

Modelling conventions.

* The build is the one outside `WIN32`, compiled by g++ for LP64: `long` has 64
  bits, a float has 4 bytes, `CopyFloat` is `memmove`, and arithmetic on a
  `void*` counts bytes.
* A float slot of memory is a `Cell α = Option α`: `some v` is a slot holding
  the value `v`, `none` is a slot whose value the model does not determine: a
  slot fresh from `new float[n]`, or a slot left holding bytes of two floats by
  a copy that is not aligned to floats.  The value type `α` is arbitrary: `Copy`
  and `Append` only move bytes (`memmove`), `Fft` needs `+` and `/ 2` on it.
* A block of memory is the list of its slots; its length is the number of
  floats really allocated.  The member `buffer` is `none` for `nullptr`.
* Sample counts, rates and indices are integers; `/` and `%` of C++ are
  `Int.tdiv` and `Int.tmod`.  `Bytes()` wraps to 64 bits as the source computes
  it, and `new float[n]` with a `long` operand fails beyond the largest array.
  Below that limit `newFloat` is the allocation that finds room on the heap;
  `Buffer.SetSamplesThrown` is the buffer left behind by one that throws.
* `CopyFloatWithin` and `Buffer.CopyFromOwnStore` take the flag `WIN32` and
  cover both expansions of the macro `CopyFloat`.
* An operation returns `none` when the call does not return normally or leaves
  defined behaviour: `new float[n]` throws, a read or write falls outside the
  allocated block, a division by zero, or a transform reads a slot whose value
  is not determined.
-/

/-- One float slot: `none` is an indeterminate (never written) slot. -/
abbrev Cell (α : Type) := Option α

/-- The members of `Buffer`, in the order the constructor initialises them;
`position` is not initialised by the constructor. -/
structure Buffer (α : Type) where
  buffer : Option (List (Cell α))
  sampleSize : Int
  internalBufferSize : Int
  sampleRate : Int
  channels : Int
  position : Option ℚ
deriving DecidableEq

variable {α : Type}

/-- The floats really allocated behind `this->buffer` (none behind `nullptr`). -/
def Buffer.mem (self : Buffer α) : List (Cell α) :=
  self.buffer.getD []

/-- The constructor `Buffer::Buffer()`. -/
def Buffer.new : Buffer α :=
  { buffer := none, sampleSize := 0, internalBufferSize := 0,
    sampleRate := 44100, channels := 2, position := none }

/-- The expression `new float[n]` with a `long` operand, as in `ResizeBuffer`,
`Copy` and `Append`: `n` slots of undetermined value.  It throws
`std::bad_array_new_length` for a negative `n` and for `n` of `2^61` or more, for
which `4 * n` bytes exceed the largest object; within that limit the heap is
taken to have room (the spec declares allocation failure fatal). -/
def newFloat (α : Type) (n : Int) : Option (List (Cell α)) :=
  if 0 ≤ n ∧ n < 2305843009213693952 then some (List.replicate n.toNat none) else none

/-- The expression `new float[n]` with an `int` operand, as in `Fft`: `n` slots
of undetermined value; throws for a negative `n`.  An `int` is below the array
size limit. -/
def newFloatInt (α : Type) (n : Int) : Option (List (Cell α)) :=
  if 0 ≤ n then some (List.replicate n.toNat none) else none

/-- The value of a 64-bit `unsigned long` read as a `long`. -/
def wrapLong (x : Int) : Int :=
  (x + 9223372036854775808) % 18446744073709551616 - 9223372036854775808

/-- The call `CopyFloat(dst + off, src, num)` in its expansion outside `WIN32`:
`memmove((void*) dst + off, (void*)src, (num) * sizeof(float))`.  The macro does
not parenthesise `dst`, so the cast applies to `dst` alone and `off` counts
bytes: the call reads `src[0 .. num)` and then writes the bytes
`[off, off + 4 * num)` of `dst`, as if through a temporary array.  Both ranges
must lie inside their blocks.  When `off` is a multiple of 4 the floats land on
the slots from `off / 4` on; otherwise each of the `num + 1` slots the bytes
touch ends up holding bytes of two floats. -/
def CopyFloat (dst : List (Cell α)) (off : Int) (src : List (Cell α)) (num : Int) :
    Option (List (Cell α)) :=
  if 0 ≤ off ∧ 0 ≤ num ∧ num.toNat ≤ src.length ∧
      off.toNat + 4 * num.toNat ≤ 4 * dst.length then
    if off.toNat % 4 = 0 then
      some (dst.take (off.toNat / 4) ++ src.take num.toNat ++
        dst.drop (off.toNat / 4 + num.toNat))
    else if num = 0 then some dst
    else
      some (dst.take (off.toNat / 4) ++ List.replicate (num.toNat + 1) none ++
        dst.drop (off.toNat / 4 + num.toNat + 1))
  else none

/-- The method `Buffer::SampleRate`. -/
def Buffer.SampleRate (self : Buffer α) : Int := self.sampleRate

/-- The method `Buffer::SetSampleRate`. -/
def Buffer.SetSampleRate (self : Buffer α) (sampleRate : Int) : Buffer α :=
  { self with sampleRate := sampleRate }

/-- The method `Buffer::Channels`. -/
def Buffer.Channels (self : Buffer α) : Int := self.channels

/-- The method `Buffer::BufferPointer`. -/
def Buffer.BufferPointer (self : Buffer α) : Option (List (Cell α)) := self.buffer

/-- The method `Buffer::Samples`. -/
def Buffer.Samples (self : Buffer α) : Int := self.sampleSize

/-- The method `Buffer::Bytes`: `sizeof(float) * sampleSize`, computed in
`size_t` and returned as a `long`. -/
def Buffer.Bytes (self : Buffer α) : Int := wrapLong (4 * self.sampleSize)

/-- The method `Buffer::Position`. -/
def Buffer.Position (self : Buffer α) : Option ℚ := self.position

/-- The method `Buffer::SetPosition`. -/
def Buffer.SetPosition (self : Buffer α) (position : ℚ) : Buffer α :=
  { self with position := some position }

/-- The method `Buffer::ResizeBuffer`. -/
def Buffer.ResizeBuffer (self : Buffer α) : Option (Buffer α) :=
  if self.sampleSize > self.internalBufferSize then
    match newFloat α self.sampleSize with
    | none => none
    | some fresh =>
      some { self with buffer := some fresh, internalBufferSize := self.sampleSize }
  else some self

/-- The method `Buffer::SetChannels`. -/
def Buffer.SetChannels (self : Buffer α) (channels : Int) : Option (Buffer α) :=
  Buffer.ResizeBuffer { self with channels := channels }

/-- The method `Buffer::SetSamples`. -/
def Buffer.SetSamples (self : Buffer α) (samples : Int) : Option (Buffer α) :=
  Buffer.ResizeBuffer { self with sampleSize := samples }

/-- The method `Buffer::CopyFormat`: the pair is (`this`, `fromBuffer`) after the call;
`fromBuffer` is only read, through its const accessors. -/
def Buffer.CopyFormat (self fromBuffer : Buffer α) : Buffer α × Buffer α :=
  ({ self with channels := fromBuffer.Channels, sampleRate := fromBuffer.SampleRate },
   fromBuffer)

/-- The method `Buffer::Copy`. -/
def Buffer.Copy (self : Buffer α) (buffer : List (Cell α)) (samples : Int) :
    Option (Buffer α) :=
  if samples > self.internalBufferSize then
    match newFloat α samples with
    | none => none
    | some fresh =>
      match CopyFloat fresh 0 buffer samples with
      | none => none
      | some newBuffer =>
        some { self with buffer := some newBuffer, internalBufferSize := samples,
                         sampleSize := samples }
  else
    match CopyFloat self.mem 0 buffer samples with
    | none => none
    | some m =>
      some { self with buffer := self.buffer.map (fun _ => m), sampleSize := samples }

/-- The method `Buffer::Append`.  The destinations `newBuffer + this->sampleSize`
and `this->buffer + this->sampleSize` are macro arguments of `CopyFloat`: the
offset `sampleSize` reaches `memmove` as a count of bytes. -/
def Buffer.Append (self : Buffer α) (src : List (Cell α)) (samples : Int) :
    Option (Buffer α) :=
  let newBufferSize := self.sampleSize + samples
  if newBufferSize > self.internalBufferSize then
    match newFloat α newBufferSize with
    | none => none
    | some fresh =>
      match CopyFloat fresh 0 self.mem self.sampleSize with
      | none => none
      | some withOld =>
        match CopyFloat withOld self.sampleSize src samples with
        | none => none
        | some newBuffer =>
          some { self with buffer := some newBuffer, internalBufferSize := newBufferSize,
                           sampleSize := newBufferSize }
  else
    match CopyFloat self.mem self.sampleSize src samples with
    | none => none
    | some m =>
      some { self with buffer := self.buffer.map (fun _ => m),
                       internalBufferSize := self.internalBufferSize + samples,
                       sampleSize := newBufferSize }

/-! ## `Buffer::Fft`

`FFT_BUFFER_SIZE` and `fft_perform` come from `fft.h`; they are parameters
here.  The transform is a function from the frame it reads (`FFT_BUFFER_SIZE`
floats at its input pointer) to the values it writes at its output pointer.
`visual_fft_init` / `fft_close` carry no data of the buffer. -/

/-- The values of a run of slots; `none` if one of them is indeterminate. -/
def allDefined : List (Cell α) → Option (List α)
  | [] => some []
  | none :: _ => none
  | some v :: rest => (allDefined rest).map (fun vs => v :: vs)

/-- What a transform reads at `m + off`: the `n` values `m[off .. off + n)`. -/
def readFrame (m : List (Cell α)) (off n : Int) : Option (List α) :=
  if 0 ≤ off ∧ 0 ≤ n ∧ off.toNat + n.toNat ≤ m.length then
    allDefined ((m.drop off.toNat).take n.toNat)
  else none

/-- What a transform leaves at its output pointer `dst`: `vals` over the first
slots of the block. -/
def writeFrame (dst : List (Cell α)) (vals : List α) : Option (List (Cell α)) :=
  if vals.length ≤ dst.length then
    some (vals.map some ++ dst.drop vals.length)
  else none

/-- One turn of the de-interleave loop:
`to = ((i % channels) * FFT_BUFFER_SIZE) + (i / count); deinterleaved[to] = this->buffer[i]`. -/
def deinterleaveStep (FFT_BUFFER_SIZE channels count : Int) (buf : List (Cell α))
    (deinterleaved : List (Cell α)) (i : Nat) : Option (List (Cell α)) :=
  let dest := (Int.tmod i channels) * FFT_BUFFER_SIZE + Int.tdiv i count
  if 0 ≤ dest ∧ dest.toNat < deinterleaved.length ∧ i < buf.length then
    some (deinterleaved.set dest.toNat (buf.getD i none))
  else none

/-- The block `deinterleaved` after
`for (int i = 0; i < count * FFT_BUFFER_SIZE; i++)`. -/
def deinterleave (FFT_BUFFER_SIZE channels count : Int) (buf : List (Cell α)) :
    Option (List (Cell α)) :=
  match newFloatInt α (FFT_BUFFER_SIZE * count) with
  | none => none
  | some fresh =>
    (List.range (count * FFT_BUFFER_SIZE).toNat).foldlM
      (deinterleaveStep FFT_BUFFER_SIZE channels count buf) fresh

/-- One turn of the averaging loop: `buffer[j] = (scratch[j] + buffer[j]) / 2`. -/
def averageStep [Add α] [Div α] [OfNat α 2] (scratch : List (Cell α))
    (buffer : List (Cell α)) (j : Nat) : Option (List (Cell α)) :=
  match scratch[j]?, buffer[j]? with
  | some (some s), some (some b) => some (buffer.set j (some ((s + b) / 2)))
  | _, _ => none

/-- One turn of `for (int i = 1; i < count; i++)`: transform segment `i` of
`deinterleaved` into `scratch`, then average `scratch` into `buffer`.  The
state of the loop is the pair (`scratch`, `buffer`). -/
def segmentStep [Add α] [Div α] [OfNat α 2] (FFT_BUFFER_SIZE : Int)
    (fft_perform : List α → List α) (deinterleaved : List (Cell α))
    (st : List (Cell α) × List (Cell α)) (i : Nat) :
    Option (List (Cell α) × List (Cell α)) :=
  match readFrame deinterleaved (i * FFT_BUFFER_SIZE) FFT_BUFFER_SIZE with
  | none => none
  | some frame =>
    match writeFrame st.1 (fft_perform frame) with
    | none => none
    | some scratch =>
      match (List.range FFT_BUFFER_SIZE.toNat).foldlM (averageStep scratch) st.2 with
      | none => none
      | some buffer => some (scratch, buffer)

/-- The method `Buffer::Fft`.  The result is (return value, `this` after the call, the
caller's frame `buffer` after the call). -/
def Buffer.Fft [Add α] [Div α] [OfNat α 2] (FFT_BUFFER_SIZE : Int)
    (fft_perform : List α → List α) (self : Buffer α) (buffer : List (Cell α))
    (size : Int) : Option (Bool × Buffer α × List (Cell α)) :=
  if self.channels = 0 then none
  else if self.sampleSize.tdiv self.channels < FFT_BUFFER_SIZE ∨ size ≠ FFT_BUFFER_SIZE then
    some (false, self, buffer)
  else if FFT_BUFFER_SIZE = 0 then none
  else
    let count := self.sampleSize.tdiv FFT_BUFFER_SIZE
    match deinterleave FFT_BUFFER_SIZE self.channels count self.mem with
    | none => none
    | some deinterleaved =>
      match (if count > 1 then newFloatInt α FFT_BUFFER_SIZE else some []) with
      | none => none
      | some scratch =>
        match readFrame self.mem 0 FFT_BUFFER_SIZE with
        | none => none
        | some frame =>
          match writeFrame buffer (fft_perform frame) with
          | none => none
          | some first =>
            match (List.range' 1 (count.toNat - 1)).foldlM
                (segmentStep FFT_BUFFER_SIZE fft_perform deinterleaved) (scratch, first) with
            | none => none
            | some st => some (true, self, st.2)

/-! ## Sequences of public calls -/

/-- A call of one of the public mutating operations, with its arguments;
`Store index value` is the write `BufferPointer()[index] = value` of a caller. -/
inductive Op (α : Type) where
  | SetSamples (samples : Int)
  | SetChannels (channels : Int)
  | Copy (buffer : List (Cell α)) (samples : Int)
  | Append (src : List (Cell α)) (samples : Int)
  | CopyFormat (fromBuffer : Buffer α)
  | SetSampleRate (sampleRate : Int)
  | SetPosition (position : ℚ)
  | Store (index : Int) (value : α)

/-- The call is made with a non-negative sample count, and a source array
holds exactly the number of floats the call announces. -/
def Op.wellFormed : Op α → Prop
  | .SetSamples samples => 0 ≤ samples
  | .SetChannels _ => True
  | .Copy buffer samples => 0 ≤ samples ∧ (buffer.length : Int) = samples
  | .Append src samples => 0 ≤ samples ∧ (src.length : Int) = samples
  | .CopyFormat _ => True
  | .SetSampleRate _ => True
  | .SetPosition _ => True
  | .Store _ _ => True

instance (op : Op α) : Decidable op.wellFormed := by
  cases op <;> unfold Op.wellFormed <;> infer_instance

/-- The write `BufferPointer()[index] = value` of a caller: inside the floats
allocated it replaces one slot of the backing store. -/
def Buffer.Store (self : Buffer α) (index : Int) (value : α) : Option (Buffer α) :=
  if 0 ≤ index ∧ index.toNat < self.mem.length then
    some { self with buffer := some (self.mem.set index.toNat (some value)) }
  else none

/-- The buffer after one call that returns normally. -/
def Buffer.step (self : Buffer α) : Op α → Option (Buffer α)
  | .SetSamples samples => self.SetSamples samples
  | .SetChannels channels => self.SetChannels channels
  | .Copy buffer samples => self.Copy buffer samples
  | .Append src samples => self.Append src samples
  | .CopyFormat fromBuffer => some (self.CopyFormat fromBuffer).1
  | .SetSampleRate sampleRate => some (self.SetSampleRate sampleRate)
  | .SetPosition position => some (self.SetPosition position)
  | .Store index value => self.Store index value

/-- The buffer a call `SetSamples(samples)` leaves behind when
`new float[sampleSize]` throws with a null `buffer`: `sampleSize` is assigned
before `ResizeBuffer` runs, `delete[]` of the null pointer released nothing, and
the other members are as before.  The allocation throws beyond the array size
limit (`newFloat` is `none`) and, below it, whenever the heap has no room.  It
is `none` when `ResizeBuffer` does not allocate, and when `buffer` was not null
(the member then dangles). -/
def Buffer.SetSamplesThrown (self : Buffer α) (samples : Int) : Option (Buffer α) :=
  if samples > self.internalBufferSize ∧ self.buffer.isNone then
    some { self with sampleSize := samples }
  else none

/-- The buffer after a sequence of calls, the first call first. -/
def Buffer.run (self : Buffer α) : List (Op α) → Option (Buffer α)
  | [] => some self
  | op :: rest =>
    match self.step op with
    | none => none
    | some next => next.run rest

/-- The states a newly constructed buffer reaches through well-formed public
calls, each of which returns normally. -/
inductive Reachable : Buffer α → Prop where
  | new : Reachable Buffer.new
  | call {s s' : Buffer α} (op : Op α) : Reachable s → op.wellFormed →
      s.step op = some s' → Reachable s'

/-! ## Concrete buffers used at the worked inputs -/

/-- A new buffer after `Copy(a, 2)` with `a = {1, 2}`. -/
def afterCopyTwo : Buffer ℚ :=
  { buffer := some [some 1, some 2], sampleSize := 2, internalBufferSize := 2,
    sampleRate := 44100, channels := 2, position := none }

/-- The calls `Copy(a, 4); SetSamples(0); Append(b, 2)` with `a = {1, 2, 3, 4}`
and `b = {5, 6}`. -/
def appendInPlaceCalls : List (Op ℚ) :=
  [.Copy [some 1, some 2, some 3, some 4] 4, .SetSamples 0, .Append [some 5, some 6] 2]

/-- A new buffer after `appendInPlaceCalls`: four floats allocated, a tracked
capacity of six. -/
def appendInPlaceState : Buffer ℚ :=
  { buffer := some [some 5, some 6, some 3, some 4], sampleSize := 2, internalBufferSize := 6,
    sampleRate := 44100, channels := 2, position := none }

/-- A mono buffer holding the four samples `0, 2, 4, 6`. -/
def monoFour : Buffer ℚ :=
  { buffer := some [some 0, some 2, some 4, some 6], sampleSize := 4, internalBufferSize := 4,
    sampleRate := 44100, channels := 1, position := none }

/-- The claim's de-interleaved window of channel `ch`: the `T` slots
`buffer[ch], buffer[c + ch], buffer[2c + ch], ...` of an interleaved buffer with
`c` channels. -/
def channelWindow (T c ch : Nat) (m : List (Cell α)) : List (Cell α) :=
  (List.range T).map (fun t => m.getD (t * c + ch) none)

/-- A stereo buffer holding the two frames `(0, 2), (4, 6)`. -/
def stereoFour : Buffer ℚ :=
  { buffer := some [some 0, some 2, some 4, some 6], sampleSize := 4, internalBufferSize := 4,
    sampleRate := 44100, channels := 2, position := none }

/-- The call `CopyFloat(m, m + k, num)` of a block onto its own start, in the
two expansions of the macro.  Outside `WIN32` it is `memmove`, which copies as
if through a temporary array.  Under `WIN32` it is `CopyMemory`, that is
`memcpy`, which is undefined when the source `[k, k + num)` and the destination
`[0, num)` overlap. -/
def CopyFloatWithin (WIN32 : Bool) (m : List (Cell α)) (k num : Int) :
    Option (List (Cell α)) :=
  if 0 ≤ k ∧ k.toNat ≤ m.length then
    if WIN32 = true ∧ 0 < num ∧ k < num then none
    else CopyFloat m 0 (m.drop k.toNat) num
  else none

/-- The call `Copy(this->buffer + k, samples)`, whose source pointer lies inside
the buffer's own backing store, in the two expansions of `CopyFloat`.  The
growing branch copies out of the old store into a fresh block before the old
store is released; the in-place branch copies the store onto its own start. -/
def Buffer.CopyFromOwnStore (WIN32 : Bool) (self : Buffer α) (k samples : Int) :
    Option (Buffer α) :=
  if 0 ≤ k ∧ k.toNat ≤ self.mem.length then
    if samples > self.internalBufferSize then
      match newFloat α samples with
      | none => none
      | some fresh =>
        match CopyFloat fresh 0 (self.mem.drop k.toNat) samples with
        | none => none
        | some newBuffer =>
          some { self with buffer := some newBuffer, internalBufferSize := samples,
                           sampleSize := samples }
    else
      match CopyFloatWithin WIN32 self.mem k samples with
      | none => none
      | some m =>
        some { self with buffer := self.buffer.map (fun _ => m), sampleSize := samples }
  else none

/-- A stereo buffer holding the four frames `(0, 1), (2, 3), (4, 5), (6, 7)`. -/
def stereoEight : Buffer ℚ :=
  { buffer := some [some 0, some 1, some 2, some 3, some 4, some 5, some 6, some 7],
    sampleSize := 8, internalBufferSize := 8, sampleRate := 44100, channels := 2,
    position := none }

/-- The claim's running pairwise average of the transforms `F_0` (`first`) and
`F_1, F_2, ...` (`rest`): `out_0 = F_0`, `out_i = (F_i + out_{i-1}) / 2`. -/
def runningAverage [Add α] [Div α] [OfNat α 2] (first : List α) (rest : List (List α)) :
    List α :=
  rest.foldl (fun out f => List.zipWith (fun x y => (x + y) / 2) f out) first

/-- The frame the transform reads for segment `i` of the block `deinterleaved`
(`deinterleaved + i * T`, `T` floats). -/
def segmentFrame (deinterleaved : List (Cell α)) (T i : Nat) : List α :=
  (readFrame deinterleaved ((i : Int) * (T : Int)) (T : Int)).getD []

/-- The arithmetic mean, slot by slot, of the transforms `first` and `rest`:
their sum divided by their number. -/
def frameMean [Add α] [Div α] [NatCast α] (first : List α) (rest : List (List α)) : List α :=
  (rest.foldl (fun acc f => List.zipWith (fun x y => x + y) f acc) first).map
    (fun x => x / ((rest.length + 1 : Nat) : α))

/-- A three-channel buffer holding the single frame `(0, 0, 4)`. -/
def threeChannel : Buffer ℚ :=
  { buffer := some [some 0, some 0, some 4], sampleSize := 3, internalBufferSize := 3,
    sampleRate := 44100, channels := 3, position := none }

/-- A new buffer after a call `SetSamples(2^62)` that threw out of
`new float[]`. -/
def afterThrowingSetSamples : Buffer ℚ :=
  { buffer := none, sampleSize := 4611686018427387904, internalBufferSize := 0,
    sampleRate := 44100, channels := 2, position := none }

/-- The calls `Copy(a, 4); Append(b, 2)` with `a = {1, 2, 3, 4}` and
`b = {5, 6}`. -/
def copyFourAppendTwoCalls : List (Op ℚ) :=
  [.Copy [some 1, some 2, some 3, some 4] 4, .Append [some 5, some 6] 2]

/-- A new buffer after `copyFourAppendTwoCalls`: six floats allocated, `b`
written from byte 4 on, the last two slots never written. -/
def copyFourAppendTwoState : Buffer ℚ :=
  { buffer := some [some 1, some 5, some 6, some 4, none, none], sampleSize := 6,
    internalBufferSize := 6, sampleRate := 44100, channels := 2, position := none }


/-- The calls `Copy(a, 4); SetPosition(3); SetSampleRate(48000);
BufferPointer()[0] = 9; Append(b, 2)` with `a = {1, 2, 3, 4}` and
`b = {5, 6}`. -/
def mixedCalls : List (Op ℚ) :=
  [.Copy [some 1, some 2, some 3, some 4] 4, .SetPosition 3, .SetSampleRate 48000,
    .Store 0 9, .Append [some 5, some 6] 2]

/-- A new buffer after `mixedCalls`. -/
def mixedState : Buffer ℚ :=
  { buffer := some [some 9, some 5, some 6, some 4, none, none], sampleSize := 6,
    internalBufferSize := 6, sampleRate := 48000, channels := 2, position := some 3 }
/-! ## The constructor and the plain accessors -/

/-- C9: a newly constructed buffer has no samples, no bytes, rate 44100, two
channels, capacity 0 and a null backing store. -/
theorem C9_new_buffer_is_empty :
    (Buffer.new : Buffer α).Samples = 0 ∧ (Buffer.new : Buffer α).Bytes = 0 ∧
    (Buffer.new : Buffer α).SampleRate = 44100 ∧ (Buffer.new : Buffer α).Channels = 2 ∧
    (Buffer.new : Buffer α).internalBufferSize = 0 ∧
    (Buffer.new : Buffer α).BufferPointer = none := by
  refine ⟨rfl, ?_, rfl, rfl, rfl, rfl⟩
  simp [Buffer.new, Buffer.Bytes, wrapLong]

/-- What a `ResizeBuffer` that returns leaves: the logical length, format and
position are kept, the capacity covers the logical length and has not shrunk. -/
theorem ResizeBuffer_spec (s s' : Buffer α) (h : s.ResizeBuffer = some s') :
    s'.sampleSize = s.sampleSize ∧ s'.channels = s.channels ∧
    s'.sampleRate = s.sampleRate ∧ s'.position = s.position ∧
    s'.sampleSize ≤ s'.internalBufferSize ∧
    s.internalBufferSize ≤ s'.internalBufferSize := by
  unfold Buffer.ResizeBuffer at h
  split_ifs at h with hgt
  · unfold newFloat at h
    split_ifs at h with hn
    · simp only [Option.some.injEq] at h
      subst h
      simp
      omega
  · simp only [Option.some.injEq] at h
    subst h
    simp
    omega

/-- The method `ResizeBuffer` returns whenever the logical length is not
negative and below the array size limit. -/
theorem ResizeBuffer_total (s : Buffer α) (h : 0 ≤ s.sampleSize)
    (hlim : s.sampleSize < 2305843009213693952) :
    ∃ s', s.ResizeBuffer = some s' := by
  unfold Buffer.ResizeBuffer newFloat
  split_ifs with h1 h2
  · exact ⟨_, rfl⟩
  · exact absurd ⟨h, hlim⟩ h2
  · exact ⟨_, rfl⟩

/-- Within 63 bits a byte count is read back as it is. -/
theorem wrapLong_small (x : Int) (h0 : 0 ≤ x) (h1 : x < 9223372036854775808) :
    wrapLong x = x := by
  unfold wrapLong
  omega

/-- C6, amended: for every buffer state and every `n` with `0 ≤ n < 2^61`, so
that `new float[n]` is within the array size limit and `4 * n` fits a `long`,
`SetSamples(n)` returns when the heap has room and leaves `Samples() == n` and
`Bytes() == 4 * n`; and when the allocation throws on a buffer with no store,
the buffer left behind has `Samples() == n` and `Bytes() == 4 * n` as well. -/
theorem C6_SetSamples_length_and_bytes (s : Buffer α) (n : Int) (hn : 0 ≤ n)
    (hlim : n < 2305843009213693952) :
    (∃ s', s.SetSamples n = some s' ∧ s'.Samples = n ∧ s'.Bytes = 4 * n) ∧
    ∀ st, s.SetSamplesThrown n = some st → st.Samples = n ∧ st.Bytes = 4 * n := by
  constructor
  · obtain ⟨s', hs'⟩ := ResizeBuffer_total { s with sampleSize := n } hn hlim
    have hsz : s'.sampleSize = n := (ResizeBuffer_spec _ _ hs').1
    refine ⟨s', hs', hsz, ?_⟩
    unfold Buffer.Bytes
    rw [hsz]
    exact wrapLong_small _ (by omega) (by omega)
  · intro st hst
    unfold Buffer.SetSamplesThrown at hst
    split_ifs at hst
    simp only [Option.some.injEq] at hst
    rw [← hst]
    refine ⟨rfl, ?_⟩
    unfold Buffer.Bytes
    exact wrapLong_small _ (by simp only; omega) (by simp only; omega)

/-- C6 amended, at a new buffer and `n = 3`. -/
theorem C6_SetSamples_length_and_bytes_witness :
    (0 : Int) ≤ 3 ∧ (3 : Int) < 2305843009213693952 ∧
    (∃ s', (Buffer.new : Buffer Int).SetSamples 3 = some s' ∧ s'.Samples = 3 ∧
      s'.Bytes = 4 * 3) ∧
    ∀ st, (Buffer.new : Buffer Int).SetSamplesThrown 3 = some st →
      st.Samples = 3 ∧ st.Bytes = 4 * 3 :=
  ⟨by decide, by decide, C6_SetSamples_length_and_bytes Buffer.new 3 (by decide) (by decide)⟩

/-- C6 as stated fails at `n = 2^62` on a new buffer: `SetSamples(2^62)` assigns
`sampleSize`, then throws out of `new float[2^62]`; the buffer it leaves has
`Samples() == 2^62` and `Bytes() == 0`, the product `4 * 2^62` wrapping to 64
bits, not `4 * 2^62`. -/
theorem C6_SetSamples_beyond_array_limit :
    (0 : Int) ≤ 4611686018427387904 ∧
    (Buffer.new : Buffer ℚ).SetSamples 4611686018427387904 = none ∧
    (Buffer.new : Buffer ℚ).SetSamplesThrown 4611686018427387904 =
      some afterThrowingSetSamples ∧
    afterThrowingSetSamples.Samples = 4611686018427387904 ∧
    afterThrowingSetSamples.Bytes = 0 ∧
    ¬ (afterThrowingSetSamples.Bytes = 4 * 4611686018427387904) := by
  refine ⟨by decide, by decide, by decide, by decide, by decide, by decide⟩

/-- C8: `CopyFormat` gives `this` the channel count and sample rate of
`fromBuffer`, keeps the logical length, capacity, backing store and position of
`this`, and leaves `fromBuffer` as it was. -/
theorem C8_CopyFormat_frame (self other : Buffer α) :
    (self.CopyFormat other).1.Channels = other.Channels ∧
    (self.CopyFormat other).1.SampleRate = other.SampleRate ∧
    (self.CopyFormat other).1.sampleSize = self.sampleSize ∧
    (self.CopyFormat other).1.internalBufferSize = self.internalBufferSize ∧
    (self.CopyFormat other).1.buffer = self.buffer ∧
    (self.CopyFormat other).1.position = self.position ∧
    (self.CopyFormat other).2 = other := by
  simp [Buffer.CopyFormat, Buffer.Channels, Buffer.SampleRate]

/-! ## `CopyFloat`, `Copy` and `Append` -/

/-- A `CopyFloat` onto the start of a block: the first `num` slots are replaced
by the first `num` slots of the source. -/
theorem CopyFloat_zero (dst src : List (Cell α)) (num : Int) :
    CopyFloat dst 0 src num =
      if 0 ≤ num ∧ num.toNat ≤ src.length ∧ num.toNat ≤ dst.length then
        some (src.take num.toNat ++ dst.drop num.toNat)
      else none := by
  unfold CopyFloat
  by_cases h : 0 ≤ num ∧ num.toNat ≤ src.length ∧ num.toNat ≤ dst.length
  · rw [if_pos h, if_pos ⟨le_refl _, h.1, h.2.1, by simp; omega⟩]
    simp
  · rw [if_neg h, if_neg (by
      rintro ⟨_, h2, h3, h4⟩
      simp at h4
      exact h ⟨h2, h3, by omega⟩)]

/-- A `CopyFloat` onto the start of a block that returned stayed inside both
blocks. -/
theorem CopyFloat_spec {dst src m : List (Cell α)} {num : Int}
    (h : CopyFloat dst 0 src num = some m) :
    0 ≤ num ∧ num.toNat ≤ src.length ∧ num.toNat ≤ dst.length ∧
    m = src.take num.toNat ++ dst.drop num.toNat := by
  rw [CopyFloat_zero] at h
  split_ifs at h with hc
  simp only [Option.some.injEq] at h
  exact ⟨hc.1, hc.2.1, hc.2.2, h.symm⟩

/-- A `CopyFloat` onto the start of a block returns when both ranges are inside
their blocks. -/
theorem CopyFloat_total (dst src : List (Cell α)) (num : Int)
    (h2 : 0 ≤ num) (h3 : num.toNat ≤ src.length) (h4 : num.toNat ≤ dst.length) :
    CopyFloat dst 0 src num = some (src.take num.toNat ++ dst.drop num.toNat) := by
  rw [CopyFloat_zero, if_pos ⟨h2, h3, h4⟩]

/-- What a `Copy(a, n)` of an `n`-float array that returns leaves. -/
theorem Copy_spec {s s' : Buffer α} {a : List (Cell α)} {n : Int}
    (ha : (a.length : Int) = n) (h : s.Copy a n = some s') :
    s'.sampleSize = n ∧ s'.mem.take n.toNat = a ∧ n.toNat ≤ s'.mem.length ∧
    n ≤ s'.internalBufferSize ∧ s.internalBufferSize ≤ s'.internalBufferSize ∧
    (s.internalBufferSize ≤ s.mem.length → s'.internalBufferSize ≤ s'.mem.length) ∧
    s'.channels = s.channels ∧ s'.sampleRate = s.sampleRate ∧ s'.position = s.position := by
  have hlen : n.toNat = a.length := by omega
  unfold Buffer.Copy at h
  split_ifs at h with hgt
  · cases hf : newFloat α n with
    | none => simp [hf] at h
    | some fresh =>
      cases hc : CopyFloat fresh 0 a n with
      | none => simp [hf, hc] at h
      | some newBuffer =>
        simp only [hf, hc, Option.some.injEq] at h
        subst h
        obtain ⟨_, _, h4, rfl⟩ := CopyFloat_spec hc
        unfold newFloat at hf
        split_ifs at hf
        simp only [Option.some.injEq] at hf
        subst hf
        simp only [Buffer.mem, Option.getD_some]
        refine ⟨trivial, ?_, ?_, le_refl _, by omega, ?_, trivial, trivial, trivial⟩
        · simp [hlen]
        · simp [hlen]
        · intro _
          simp [hlen]
          omega
  · cases hc : CopyFloat s.mem 0 a n with
    | none => simp [hc] at h
    | some m =>
      simp only [hc, Option.some.injEq] at h
      subst h
      obtain ⟨_, _, h4, rfl⟩ := CopyFloat_spec hc
      cases hb : s.buffer with
      | none =>
        simp only [Buffer.mem, hb, Option.getD_none, List.length_nil] at h4 ⊢
        have : a = [] := List.eq_nil_of_length_eq_zero (by omega)
        subst this
        simp at hlen
        simp [hlen]
        omega
      | some blk =>
        simp only [Buffer.mem, hb, Option.getD_some, Option.map_some'] at h4 ⊢
        refine ⟨trivial, ?_, ?_, by omega, le_refl _, ?_, trivial, trivial, trivial⟩
        · simp [hlen]
        · simp at h4 ⊢
          omega
        · intro hcap
          simp at h4 ⊢
          omega

/-- The call `Copy(a, n)` of an `n`-float array below the array size limit
returns in every state whose tracked capacity does not exceed the floats really
allocated. -/
theorem Copy_total (s : Buffer α) (a : List (Cell α)) (n : Int) (hn : 0 ≤ n)
    (hlim : n < 2305843009213693952)
    (ha : (a.length : Int) = n) (hcap : s.internalBufferSize ≤ s.mem.length) :
    ∃ s', s.Copy a n = some s' := by
  unfold Buffer.Copy
  split_ifs with hgt
  · have hf : newFloat α n = some (List.replicate n.toNat none) := by
      simp [newFloat, hn, hlim]
    simp only [hf]
    rw [CopyFloat_total (List.replicate n.toNat none) a n hn (by omega) (by simp)]
    exact ⟨_, rfl⟩
  · rw [CopyFloat_total s.mem a n hn (by omega) (by omega)]
    exact ⟨_, rfl⟩

/-- A `CopyFloat` that returned was given a non-negative offset and count. -/
theorem CopyFloat_nonneg {dst src m : List (Cell α)} {off num : Int}
    (h : CopyFloat dst off src num = some m) : 0 ≤ off ∧ 0 ≤ num := by
  unfold CopyFloat at h
  split_ifs at h with hc
  all_goals exact ⟨hc.1, hc.2.1⟩

/-- What an `Append(b, m)` that returns leaves in the members other than the
backing store. -/
theorem Append_spec {s s' : Buffer α} {b : List (Cell α)} {m : Int}
    (h : s.Append b m = some s') :
    s'.sampleSize = s.sampleSize + m ∧ 0 ≤ m ∧
    s.sampleSize + m ≤ s'.internalBufferSize ∧
    s.internalBufferSize ≤ s'.internalBufferSize ∧
    s'.channels = s.channels ∧ s'.sampleRate = s.sampleRate ∧ s'.position = s.position := by
  unfold Buffer.Append at h
  simp only at h
  split_ifs at h with hgt
  · cases hf : newFloat α (s.sampleSize + m) with
    | none => simp [hf] at h
    | some fresh =>
      cases hc1 : CopyFloat fresh 0 s.mem s.sampleSize with
      | none => simp [hf, hc1] at h
      | some withOld =>
        cases hc2 : CopyFloat withOld s.sampleSize b m with
        | none => simp [hf, hc1, hc2] at h
        | some newBuffer =>
          simp only [hf, hc1, hc2, Option.some.injEq] at h
          subst h
          have hm := (CopyFloat_nonneg hc2).2
          exact ⟨rfl, hm, le_refl _, by simp only; omega, rfl, rfl, rfl⟩
  · cases hc : CopyFloat s.mem s.sampleSize b m with
    | none => simp [hc] at h
    | some blk' =>
      simp only [hc, Option.some.injEq] at h
      subst h
      have hm := (CopyFloat_nonneg hc).2
      exact ⟨rfl, hm, by simp only; omega, by simp only; omega, rfl, rfl, rfl⟩

/-! ## Capacity against logical length -/

/-- One call that returns: the capacity has not shrunk, and it covers the
logical length if it did before. -/
theorem step_capacity {s s' : Buffer α} {op : Op α} (hwf : op.wellFormed)
    (h : s.step op = some s') :
    s.internalBufferSize ≤ s'.internalBufferSize ∧
    (s.sampleSize ≤ s.internalBufferSize → s'.sampleSize ≤ s'.internalBufferSize) := by
  cases op with
  | SetSamples samples =>
    have hr := ResizeBuffer_spec { s with sampleSize := samples } s' h
    exact ⟨hr.2.2.2.2.2, fun _ => hr.2.2.2.2.1⟩
  | SetChannels channels =>
    have hr := ResizeBuffer_spec { s with channels := channels } s' h
    exact ⟨hr.2.2.2.2.2, fun _ => hr.2.2.2.2.1⟩
  | Copy buffer samples =>
    have hc := Copy_spec hwf.2 h
    exact ⟨hc.2.2.2.2.1, fun _ => hc.1 ▸ hc.2.2.2.1⟩
  | Append src samples =>
    have ha := Append_spec h
    exact ⟨ha.2.2.2.1, fun _ => ha.1 ▸ ha.2.2.1⟩
  | CopyFormat fromBuffer =>
    simp only [Buffer.step, Option.some.injEq] at h
    subst h
    exact ⟨le_refl _, fun hle => hle⟩
  | SetSampleRate sampleRate =>
    simp only [Buffer.step, Option.some.injEq] at h
    subst h
    exact ⟨le_refl _, fun hle => hle⟩
  | SetPosition position =>
    simp only [Buffer.step, Option.some.injEq] at h
    subst h
    exact ⟨le_refl _, fun hle => hle⟩
  | Store index value =>
    simp only [Buffer.step, Buffer.Store] at h
    split_ifs at h
    simp only [Option.some.injEq] at h
    subst h
    exact ⟨le_refl _, fun hle => hle⟩

/-- A sequence of well-formed calls that all return, from a reachable state,
ends in a reachable state. -/
theorem Reachable_run {s : Buffer α} (hs : Reachable s) :
    ∀ (ops : List (Op α)) (s' : Buffer α), (∀ op ∈ ops, op.wellFormed) →
      s.run ops = some s' → Reachable s' := by
  intro ops
  induction ops generalizing s with
  | nil =>
    intro s' _ h
    simp only [Buffer.run, Option.some.injEq] at h
    exact h ▸ hs
  | cons op rest ih =>
    intro s' hwf h
    unfold Buffer.run at h
    cases hstep : s.step op with
    | none => simp [hstep] at h
    | some next =>
      simp only [hstep] at h
      exact ih (Reachable.call op hs (hwf op (List.mem_cons_self _ _)) hstep) s'
        (fun o ho => hwf o (List.mem_cons_of_mem _ ho)) h

/-- C7: along any sequence of calls of `SetSamples(n)`, `Copy(a, n)`,
`Append(b, m)` with `n, m ≥ 0` that return (a single call is the one-call
sequence; `SetChannels`, `CopyFormat`, the plain setters and writes through
`BufferPointer()` may be mixed in), the capacity at the end is at least the
capacity at the start; and a `SetSamples` that throws leaves the capacity as
it was. -/
theorem C7_capacity_never_decreases (s s' : Buffer α) (ops : List (Op α))
    (hwf : ∀ op ∈ ops, op.wellFormed) (h : s.run ops = some s') :
    s.internalBufferSize ≤ s'.internalBufferSize ∧
    ∀ n st, s'.SetSamplesThrown n = some st →
      st.internalBufferSize = s'.internalBufferSize := by
  constructor
  · induction ops generalizing s with
    | nil =>
      simp only [Buffer.run, Option.some.injEq] at h
      exact h ▸ le_refl _
    | cons op rest ih =>
      unfold Buffer.run at h
      cases hstep : s.step op with
      | none => simp [hstep] at h
      | some next =>
        simp only [hstep] at h
        exact le_trans (step_capacity (hwf op (List.mem_cons_self _ _)) hstep).1
          (ih next (fun o ho => hwf o (List.mem_cons_of_mem _ ho)) h)
  · intro n st hst
    unfold Buffer.SetSamplesThrown at hst
    split_ifs at hst
    simp only [Option.some.injEq] at hst
    rw [← hst]

/-- The calls of `appendInPlaceCalls` have non-negative counts and arrays of
the announced length. -/
theorem appendInPlaceCalls_wellFormed : ∀ op ∈ appendInPlaceCalls, op.wellFormed := by
  intro op hop
  simp only [appendInPlaceCalls, List.mem_cons, List.mem_singleton, List.not_mem_nil,
    or_false] at hop
  rcases hop with rfl | rfl | rfl <;> simp [Op.wellFormed]

/-- A new buffer completes `appendInPlaceCalls` and ends in
`appendInPlaceState`. -/
theorem appendInPlaceCalls_run :
    (Buffer.new : Buffer ℚ).run appendInPlaceCalls = some appendInPlaceState := by
  decide

/-- C7 along `Copy(a, 4); SetSamples(0); Append(b, 2)` from a new buffer. -/
theorem C7_capacity_never_decreases_witness :
    (∀ op ∈ appendInPlaceCalls, op.wellFormed) ∧
    (Buffer.new : Buffer ℚ).run appendInPlaceCalls = some appendInPlaceState ∧
    ((Buffer.new : Buffer ℚ).internalBufferSize ≤ appendInPlaceState.internalBufferSize ∧
      ∀ n st, appendInPlaceState.SetSamplesThrown n = some st →
        st.internalBufferSize = appendInPlaceState.internalBufferSize) :=
  ⟨appendInPlaceCalls_wellFormed, appendInPlaceCalls_run,
    C7_capacity_never_decreases Buffer.new appendInPlaceState appendInPlaceCalls
      appendInPlaceCalls_wellFormed appendInPlaceCalls_run⟩

/-! ## `Copy` and `Append` on the content -/

/-- C1 at its failing input: `appendInPlaceState` is reachable from a new
buffer through well-formed calls, it tracks a capacity of 6 over a backing store
of 4 floats, so `Copy(c, 6)` takes the in-place branch and writes 6 floats into
the 4 allocated: the call leaves defined behaviour, whereas `Copy(c, 4)` in the
same state completes. -/
theorem C1_Copy_writes_past_allocation :
    Reachable appendInPlaceState ∧
    appendInPlaceState.mem.length = 4 ∧
    appendInPlaceState.internalBufferSize = 6 ∧
    ¬ ((6 : Int) > appendInPlaceState.internalBufferSize) ∧
    CopyFloat appendInPlaceState.mem 0
      [some 1, some 2, some 3, some 4, some 5, some 6] 6 = none ∧
    appendInPlaceState.Copy [some 1, some 2, some 3, some 4, some 5, some 6] 6 = none ∧
    (appendInPlaceState.Copy [some 1, some 2, some 3, some 4] 4).isSome = true :=
  ⟨Reachable_run Reachable.new appendInPlaceCalls appendInPlaceState
      appendInPlaceCalls_wellFormed appendInPlaceCalls_run,
    by decide, by decide, by decide, by decide, by decide, by decide⟩

/-- C2 at its failing input: on a new buffer `Copy(a, 4)` with `a = {1, 2, 3, 4}`
allocates four floats, and `Append(b, 2)` with `b = {5, 6}` grows the store to
six floats, copies `a` to its start and then calls
`CopyFloat(newBuffer + 4, src, 2)`, whose offset 4 is a count of bytes: `b` lands
on slots 1 and 2.  `Samples()` is 6, but the store holds `1, 5, 6, 4` and two
floats never written, not `a ++ b`.  After `Copy({1, 2, 3}, 3); Append({4, 5}, 2)`
the offset is 3 bytes and no slot of the store holds a float of `a` or `b`. -/
theorem C2_Append_writes_at_byte_offset :
    (∀ op ∈ copyFourAppendTwoCalls, op.wellFormed) ∧
    (Buffer.new : Buffer ℚ).run copyFourAppendTwoCalls = some copyFourAppendTwoState ∧
    CopyFloat [some 1, some 2, some 3, some 4, none, (none : Cell ℚ)] 4
      [some 5, some 6] 2 = some [some 1, some 5, some 6, some 4, none, none] ∧
    copyFourAppendTwoState.Samples = 4 + 2 ∧
    copyFourAppendTwoState.mem = [some 1, some 5, some 6, some 4, none, none] ∧
    ¬ (copyFourAppendTwoState.mem.take (4 + 2) =
      [some 1, some 2, some 3, some 4] ++ [some 5, some 6]) ∧
    ((Buffer.new : Buffer ℚ).run
      [.Copy [some 1, some 2, some 3] 3, .Append [some 4, some 5] 2]).map Buffer.mem =
        some [none, none, none, none, none] := by
  refine ⟨?_, by decide, by decide, by decide, by decide, by decide, by decide⟩
  intro op hop
  simp only [copyFourAppendTwoCalls, List.mem_cons, List.mem_singleton, List.not_mem_nil,
    or_false] at hop
  rcases hop with rfl | rfl <;> simp [Op.wellFormed]

/-- C10: for every buffer state and every array `a` of length `n ≥ 0`, a second
`Copy(a, n)` right after a `Copy(a, n)` that returned returns too and leaves the
same `Samples()`, the same capacity and the same first `n` floats (indeed the
same buffer); and the first `Copy(a, n)` returns whenever the tracked capacity
does not exceed the floats really allocated and `n` is below the array size
limit `2^61` of `new float[n]`. -/
theorem C10_Copy_idempotent (s : Buffer α) (a : List (Cell α)) (n : Int) (hn : 0 ≤ n)
    (ha : (a.length : Int) = n) :
    (s.internalBufferSize ≤ s.mem.length → n < 2305843009213693952 →
      ∃ s1, s.Copy a n = some s1) ∧
    ∀ s1, s.Copy a n = some s1 →
      ∃ s2, s1.Copy a n = some s2 ∧ s2.Samples = s1.Samples ∧
        s2.internalBufferSize = s1.internalBufferSize ∧
        s2.mem.take n.toNat = s1.mem.take n.toNat ∧ s2 = s1 := by
  refine ⟨fun hcap hlim => Copy_total s a n hn hlim ha hcap, ?_⟩
  intro s1 h1
  have c1 := Copy_spec ha h1
  have hlen : n.toNat = a.length := by omega
  have hle : ¬ (n > s1.internalBufferSize) := by
    have := c1.2.2.2.1
    omega
  have hcf := CopyFloat_total s1.mem a n hn (by omega) c1.2.2.1
  have hsame : s1.Copy a n = some s1 := by
    unfold Buffer.Copy
    rw [if_neg hle]
    simp only [hcf]
    have hm : List.take n.toNat a ++ List.drop n.toNat s1.mem = s1.mem := by
      have h2 := c1.2.1
      rw [hlen, List.take_length]
      conv_rhs => rw [← List.take_append_drop a.length s1.mem]
      rw [← hlen, h2]
    rw [hm]
    have hsz := c1.1
    cases s1 with
    | mk buffer sampleSize internalBufferSize sampleRate channels position =>
      simp only at hsz
      subst hsz
      cases buffer <;> simp [Buffer.mem]
  exact ⟨s1, hsame, rfl, rfl, rfl, rfl⟩

/-- C10 at a new buffer and `a = {1, 2}`. -/
theorem C10_Copy_idempotent_witness :
    (0 : Int) ≤ 2 ∧ (([some 1, some 2] : List (Cell ℚ)).length : Int) = 2 ∧
    ((Buffer.new : Buffer ℚ).Copy [some 1, some 2] 2 = some afterCopyTwo) ∧
    ((Buffer.new : Buffer ℚ).internalBufferSize ≤ (Buffer.new : Buffer ℚ).mem.length →
      (2 : Int) < 2305843009213693952 →
      ∃ s1, (Buffer.new : Buffer ℚ).Copy [some 1, some 2] 2 = some s1) ∧
    ∀ s1, (Buffer.new : Buffer ℚ).Copy [some 1, some 2] 2 = some s1 →
      ∃ s2, s1.Copy [some 1, some 2] 2 = some s2 ∧ s2.Samples = s1.Samples ∧
        s2.internalBufferSize = s1.internalBufferSize ∧
        s2.mem.take (2 : Int).toNat = s1.mem.take (2 : Int).toNat ∧ s2 = s1 :=
  ⟨by decide, by decide, by decide,
    C10_Copy_idempotent Buffer.new [some 1, some 2] 2 (by decide) (by decide)⟩

/-! ## `Fft` -/

section Fft

variable [Add α] [Div α] [OfNat α 2]

/-- C4: for a buffer with `channels > 0`, `Fft` returns `false` exactly when
`size != FFT_BUFFER_SIZE` or `sampleSize / channels < FFT_BUFFER_SIZE`, and a call
that returns `false` leaves every member of the buffer and the caller's frame as
they were. -/
theorem C4_Fft_false_iff (FFT_BUFFER_SIZE : Int) (fft_perform : List α → List α)
    (s : Buffer α) (out : List (Cell α)) (size : Int) (hc : 0 < s.channels) :
    ((∃ s' out', s.Fft FFT_BUFFER_SIZE fft_perform out size = some (false, s', out')) ↔
      (size ≠ FFT_BUFFER_SIZE ∨ s.sampleSize.tdiv s.channels < FFT_BUFFER_SIZE)) ∧
    (∀ s' out', s.Fft FFT_BUFFER_SIZE fft_perform out size = some (false, s', out') →
      s' = s ∧ out' = out) := by
  have hc0 : s.channels ≠ 0 := by omega
  by_cases hcond : s.sampleSize.tdiv s.channels < FFT_BUFFER_SIZE ∨ size ≠ FFT_BUFFER_SIZE
  · have hF : s.Fft FFT_BUFFER_SIZE fft_perform out size = some (false, s, out) := by
      unfold Buffer.Fft
      rw [if_neg hc0, if_pos hcond]
    constructor
    · exact ⟨fun _ => hcond.symm, fun _ => ⟨s, out, hF⟩⟩
    · intro s' out' h
      rw [hF] at h
      simp only [Option.some.injEq, Prod.mk.injEq, true_and] at h
      exact ⟨h.1.symm, h.2.symm⟩
  · have hne : ∀ s' out',
        s.Fft FFT_BUFFER_SIZE fft_perform out size ≠ some (false, s', out') := by
      intro s' out' h
      unfold Buffer.Fft at h
      rw [if_neg hc0, if_neg hcond] at h
      simp only at h
      split_ifs at h
      repeat' split at h
      all_goals simp at h
    constructor
    · constructor
      · rintro ⟨s', out', h⟩
        exact absurd h (hne s' out')
      · intro h
        exact absurd h.symm hcond
    · intro s' out' h
      exact absurd h (hne s' out')

/-- C4 at the mono buffer `monoFour` with `FFT_BUFFER_SIZE = 8`. -/
theorem C4_Fft_false_iff_witness :
    (0 : Int) < monoFour.channels ∧
    monoFour.Fft 8 id [none] 8 = some (false, monoFour, [none]) ∧
    (((∃ s' out', monoFour.Fft 8 id [none] 8 = some (false, s', out')) ↔
      ((8 : Int) ≠ 8 ∨ monoFour.sampleSize.tdiv monoFour.channels < 8)) ∧
    (∀ s' out', monoFour.Fft 8 id [none] 8 = some (false, s', out') →
      s' = monoFour ∧ out' = [none])) :=
  ⟨by decide, by decide, C4_Fft_false_iff 8 id monoFour [none] 8 (by decide)⟩

end Fft

/-! ### Loops

The loops of `Fft` are folds in the `Option` monad; these two lemmas carry an
invariant through a fold whose every turn completes. -/

/-- A fold over a list completes and keeps `P` when every turn on an element of
the list completes and keeps `P`. -/
theorem foldlM_completes {β γ : Type} (f : β → γ → Option β) (P : β → Prop) :
    ∀ (l : List γ), (∀ b x, x ∈ l → P b → ∃ b', f b x = some b' ∧ P b') →
      ∀ b, P b → ∃ b', l.foldlM f b = some b' ∧ P b' := by
  intro l
  induction l with
  | nil =>
    intro _ b hb
    exact ⟨b, rfl, hb⟩
  | cons x rest ih =>
    intro hstep b hb
    obtain ⟨b1, h1, hP1⟩ := hstep b x (List.mem_cons_self _ _) hb
    obtain ⟨b2, h2, hP2⟩ := ih (fun b y hy => hstep b y (List.mem_cons_of_mem _ hy)) b1 hP1
    refine ⟨b2, ?_, hP2⟩
    rw [List.foldlM_cons, h1]
    exact h2

/-- A counting loop `for (i = 0; i < n; i++)` completes with `P n` when turn `k`
completes and takes `P k` to `P (k + 1)`. -/
theorem foldlM_range_completes {β : Type} (f : β → Nat → Option β) (P : Nat → β → Prop) :
    ∀ (n : Nat), (∀ k b, k < n → P k b → ∃ b', f b k = some b' ∧ P (k + 1) b') →
      ∀ b, P 0 b → ∃ b', (List.range n).foldlM f b = some b' ∧ P n b' := by
  intro n
  induction n with
  | zero =>
    intro _ b hb
    exact ⟨b, rfl, hb⟩
  | succ n ih =>
    intro hstep b hb
    obtain ⟨b1, h1, hP1⟩ := ih (fun k b hk => hstep k b (Nat.lt_succ_of_lt hk)) b hb
    obtain ⟨b2, h2, hP2⟩ := hstep n b1 (Nat.lt_succ_self n) hP1
    refine ⟨b2, ?_, hP2⟩
    rw [List.range_succ, List.foldlM_append, h1]
    simp [h2]

/-- The destination index of the de-interleave loop on natural numbers. -/
theorem deinterleaveStep_natural (T c count : Nat) (buf D : List (Cell α)) (i : Nat) :
    deinterleaveStep (T : Int) (c : Int) (count : Int) buf D i =
      if (i % c) * T + i / count < D.length ∧ i < buf.length then
        some (D.set ((i % c) * T + i / count) (buf.getD i none))
      else none := by
  have e : Int.tmod (i : Int) (c : Int) * (T : Int) + Int.tdiv (i : Int) (count : Int) =
      (((i % c) * T + i / count : Nat) : Int) := by
    rw [← Int.ofNat_tdiv, ← Int.ofNat_tmod]
    push_cast
    rfl
  unfold deinterleaveStep
  simp only [e, Int.toNat_ofNat, Int.natCast_nonneg, true_and]

/-- The function `allDefined` succeeds exactly on runs of defined slots. -/
theorem allDefined_eq_some {l : List (Cell α)} {vs : List α} :
    allDefined l = some vs ↔ l = vs.map some := by
  induction l generalizing vs with
  | nil =>
    cases vs <;> simp [allDefined]
  | cons x rest ih =>
    cases x with
    | none => cases vs <;> simp [allDefined]
    | some v =>
      cases vs with
      | nil => simp [allDefined]
      | cons w ws =>
        simp only [allDefined, Option.map_eq_some', List.map_cons, List.cons.injEq,
          Option.some.injEq]
        constructor
        · rintro ⟨a, ha, rfl, rfl⟩
          exact ⟨rfl, ih.mp ha⟩
        · rintro ⟨rfl, h⟩
          exact ⟨ws, ih.mpr h, rfl, rfl⟩

/-- A run of slots that are each defined has values. -/
theorem allDefined_of_forall (l : List (Cell α))
    (h : ∀ j, j < l.length → ∃ v, l[j]? = some (some v)) :
    ∃ vs, allDefined l = some vs ∧ vs.length = l.length := by
  induction l with
  | nil => exact ⟨[], rfl, rfl⟩
  | cons x rest ih =>
    obtain ⟨v, hv⟩ := h 0 (by simp)
    simp only [List.getElem?_cons_zero, Option.some.injEq] at hv
    subst hv
    obtain ⟨vs, hvs, hl⟩ := ih (fun j hj => by
      have := h (j + 1) (by simp; omega)
      simpa using this)
    exact ⟨v :: vs, by simp [allDefined, hvs], by simp [hl]⟩

/-- The first `n` slots of a block that starts with `n` defined values are in
the block and defined. -/
theorem defined_start {buf : List (Cell α)} {vals : List α} {n : Nat}
    (hv : vals.length = n) (hbuf : buf.take n = vals.map some) :
    n ≤ buf.length ∧ ∀ k, k < n → ∃ v, buf[k]? = some (some v) := by
  have hl : (buf.take n).length = n := by rw [hbuf, List.length_map, hv]
  rw [List.length_take] at hl
  refine ⟨by omega, ?_⟩
  intro k hk
  have h1 : (buf.take n)[k]? = buf[k]? := List.getElem?_take_of_lt hk
  rw [hbuf, List.getElem?_map] at h1
  have hk' : k < vals.length := by omega
  rw [List.getElem?_eq_getElem hk'] at h1
  exact ⟨vals[k], by rw [← h1]; rfl⟩

/-- The destination of turn `i < c * T` of the de-interleave loop with
`count = channels = c` lies inside a block of `c * T` floats. -/
theorem dest_lt (T c i : Nat) (hc : 0 < c) (hi : i < c * T) :
    (i % c) * T + i / c < c * T := by
  have h1 : i % c < c := Nat.mod_lt _ hc
  have h2 : i / c < T := (Nat.div_lt_iff_lt_mul hc).mpr (by rw [Nat.mul_comm] at hi; exact hi)
  have h3 : (i % c) * T ≤ (c - 1) * T := Nat.mul_le_mul_right _ (by omega)
  have h4 : (c - 1) * T + T = c * T := by
    have : c - 1 + 1 = c := by omega
    calc (c - 1) * T + T = (c - 1 + 1) * T := by rw [Nat.add_mul, Nat.one_mul]
      _ = c * T := by rw [this]
  omega

/-- Every slot `p < c * T` is the destination of a turn of the de-interleave
loop with `count = channels = c`. -/
theorem dest_covers (T c p : Nat) (hT : 0 < T) (hp : p < c * T) :
    ∃ i, i < c * T ∧ (i % c) * T + i / c = p := by
  have hc : 0 < c := by
    rcases Nat.eq_zero_or_pos c with h | h
    · subst h
      simp at hp
    · exact h
  have h1 : p / T < c := (Nat.div_lt_iff_lt_mul hT).mpr hp
  have h2 : p % T < T := Nat.mod_lt _ hT
  refine ⟨(p % T) * c + p / T, ?_, ?_⟩
  · have h3 : (p % T) * c ≤ (T - 1) * c := Nat.mul_le_mul_right _ (by omega)
    have h4 : (T - 1) * c + c = c * T := by
      have : T - 1 + 1 = T := by omega
      calc (T - 1) * c + c = (T - 1 + 1) * c := by rw [Nat.add_mul, Nat.one_mul]
        _ = T * c := by rw [this]
        _ = c * T := Nat.mul_comm _ _
    omega
  · have e1 : ((p % T) * c + p / T) % c = p / T := by
      rw [Nat.mul_comm, Nat.mul_add_mod, Nat.mod_eq_of_lt h1]
    have e2 : ((p % T) * c + p / T) / c = p % T := by
      rw [Nat.mul_comm, Nat.mul_add_div hc, Nat.div_eq_of_lt h1, Nat.add_zero]
    rw [e1, e2, Nat.mul_comm]
    exact Nat.div_add_mod p T

/-- With `count = channels = c` over `c * T` defined samples the de-interleave
loop completes, and every slot of its block of `c * T` floats is defined. -/
theorem deinterleave_defined (T c : Nat) (hT : 0 < T) (hc : 0 < c) (buf : List (Cell α))
    (vals : List α) (hv : vals.length = c * T) (hbuf : buf.take (c * T) = vals.map some) :
    ∃ D, deinterleave (T : Int) (c : Int) (c : Int) buf = some D ∧ D.length = c * T ∧
      ∀ p, p < c * T → ∃ v, D[p]? = some (some v) := by
  obtain ⟨hlen, hcell⟩ := defined_start hv hbuf
  have e1 : ((T : Int) * (c : Int)).toNat = c * T := by
    rw [← Int.natCast_mul, Int.toNat_ofNat, Nat.mul_comm]
  have e2 : ((c : Int) * (T : Int)).toNat = c * T := by
    rw [← Int.natCast_mul, Int.toNat_ofNat]
  have hnew : newFloatInt α ((T : Int) * (c : Int)) =
      some (List.replicate (c * T) none) := by
    unfold newFloatInt
    rw [if_pos (by positivity), e1]
  unfold deinterleave
  simp only [hnew, e2]
  obtain ⟨D, hD, hlenD, hdef⟩ := foldlM_range_completes
    (deinterleaveStep (T : Int) (c : Int) (c : Int) buf)
    (fun k (D : List (Cell α)) => D.length = c * T ∧
      ∀ i, i < k → ∃ v, D[(i % c) * T + i / c]? = some (some v))
    (c * T)
    (by
      intro k D hk hP
      obtain ⟨hPl, hPd⟩ := hP
      obtain ⟨v, hvk⟩ := hcell k hk
      have hdest := dest_lt T c k hc hk
      rw [deinterleaveStep_natural, if_pos ⟨by omega, by omega⟩]
      refine ⟨_, rfl, by simp [hPl], ?_⟩
      intro i hi
      rw [List.getElem?_set]
      split_ifs with h1 h2
      · exact ⟨v, by simp [hvk]⟩
      · omega
      · exact hPd i (by
          rcases Nat.lt_succ_iff_lt_or_eq.mp hi with h | h
          · exact h
          · subst h
            exact absurd rfl h1))
    (List.replicate (c * T) none) ⟨by simp, by intro i hi; omega⟩
  refine ⟨D, hD, hlenD, ?_⟩
  intro p hp
  obtain ⟨i, hi, rfl⟩ := dest_covers T c p hT hp
  exact hdef i hi

/-- A transform reads a frame from every run of `n` allocated, defined slots. -/
theorem readFrame_defined (m : List (Cell α)) (off n : Nat) (h : off + n ≤ m.length)
    (hdef : ∀ j, j < n → ∃ v, m[off + j]? = some (some v)) :
    ∃ frame, readFrame m (off : Int) (n : Int) = some frame ∧ frame.length = n := by
  unfold readFrame
  simp only [Int.toNat_ofNat, Int.natCast_nonneg, true_and]
  rw [if_pos h]
  have hl : ((m.drop off).take n).length = n := by
    rw [List.length_take, List.length_drop]
    omega
  obtain ⟨vs, hvs, hvl⟩ := allDefined_of_forall ((m.drop off).take n) (by
    intro j hj
    rw [hl] at hj
    rw [List.getElem?_take_of_lt hj, List.getElem?_drop]
    exact hdef j hj)
  exact ⟨vs, hvs, by rw [hvl, hl]⟩

/-- A transform whose input pointer is a block starting with the `n` defined
values `vs` reads exactly `vs`. -/
theorem readFrame_start (m : List (Cell α)) (vs : List α) (n : Nat) (hv : vs.length = n)
    (hm : m.take n = vs.map some) : readFrame m 0 (n : Int) = some vs := by
  have hlen := (defined_start hv hm).1
  unfold readFrame
  simp only [Int.toNat_ofNat, Int.toNat_zero, Int.natCast_nonneg, le_refl, true_and,
    Nat.zero_add, List.drop_zero]
  rw [if_pos hlen]
  exact allDefined_eq_some.mpr hm

section FftLoops

variable [Add α] [Div α] [OfNat α 2]

/-- The averaging loop completes on two frames whose first `T` slots are
defined; it keeps the size of `buffer` and leaves its first `T` slots defined. -/
theorem average_completes (T : Nat) (scratch buffer : List (Cell α))
    (hs : ∀ j, j < T → ∃ v, scratch[j]? = some (some v))
    (hb : ∀ j, j < T → ∃ v, buffer[j]? = some (some v)) :
    ∃ b', (List.range T).foldlM (averageStep scratch) buffer = some b' ∧
      b'.length = buffer.length ∧ ∀ j, j < T → ∃ v, b'[j]? = some (some v) := by
  obtain ⟨b', h, hl, hd⟩ := foldlM_completes (averageStep scratch)
    (fun (b : List (Cell α)) => b.length = buffer.length ∧
      ∀ j, j < T → ∃ v, b[j]? = some (some v))
    (List.range T)
    (by
      intro b x hx hP
      obtain ⟨hPl, hPd⟩ := hP
      have hxT : x < T := List.mem_range.mp hx
      obtain ⟨sv, hsv⟩ := hs x hxT
      obtain ⟨bv, hbv⟩ := hPd x hxT
      have hxl : x < b.length := by
        by_contra hne
        rw [List.getElem?_eq_none (by omega)] at hbv
        exact absurd hbv (by simp)
      refine ⟨b.set x (some ((sv + bv) / 2)), by simp [averageStep, hsv, hbv],
        by simp [hPl], ?_⟩
      intro j hj
      rw [List.getElem?_set]
      split_ifs with h1
      · exact ⟨_, rfl⟩
      · exact hPd j hj)
    buffer ⟨rfl, hb⟩
  exact ⟨b', h, hl, hd⟩

/-- One turn `1 ≤ i < c` of the segment loop completes over a fully defined
de-interleaved block of `c * T` floats, with a transform that writes `T`
values; `scratch` keeps `T` floats and `buffer` keeps its size and its first `T`
slots defined. -/
theorem segmentStep_completes (T c : Nat) (fft_perform : List α → List α)
    (hF : ∀ xs : List α, xs.length = T → (fft_perform xs).length = T)
    (D : List (Cell α)) (hDl : D.length = c * T)
    (hDd : ∀ p, p < c * T → ∃ v, D[p]? = some (some v))
    (n : Nat) (st : List (Cell α) × List (Cell α)) (i : Nat) (hi : i < c)
    (hP : st.1.length = T ∧ st.2.length = n ∧ ∀ j, j < T → ∃ v, st.2[j]? = some (some v)) :
    ∃ st', segmentStep (T : Int) fft_perform D st i = some st' ∧
      st'.1.length = T ∧ st'.2.length = n ∧ ∀ j, j < T → ∃ v, st'.2[j]? = some (some v) := by
  obtain ⟨hsl, hbl, hbd⟩ := hP
  have hseg : i * T + T ≤ c * T := by
    have : (i + 1) * T ≤ c * T := Nat.mul_le_mul_right _ hi
    rw [Nat.add_mul, Nat.one_mul] at this
    exact this
  obtain ⟨frame, hframe, hfl⟩ := readFrame_defined D (i * T) T (by omega)
    (fun j hj => hDd (i * T + j) (by omega))
  have hcast : ((i : Int) * (T : Int)) = ((i * T : Nat) : Int) := by push_cast; rfl
  have hwl := hF frame hfl
  unfold segmentStep
  simp only [hcast, hframe]
  unfold writeFrame
  rw [if_pos (by omega)]
  simp only
  obtain ⟨b', hb', hb'l, hb'd⟩ := average_completes T
    (List.map some (fft_perform frame) ++ List.drop (fft_perform frame).length st.1) st.2
    (by
      intro j hj
      rw [List.getElem?_append_left (by simp; omega), List.getElem?_map,
        List.getElem?_eq_getElem (by omega)]
      exact ⟨_, rfl⟩)
    hbd
  simp only [Int.toNat_ofNat, hb']
  exact ⟨_, rfl, by simp; omega, by simp [hb'l, hbl], hb'd⟩

end FftLoops

/-- The channel-0 window of a mono buffer is the start of the buffer. -/
theorem channelWindow_mono (T : Nat) (m : List (Cell α)) (vals : List α)
    (hv : vals.length = T) (hm : m.take T = vals.map some) :
    channelWindow T 1 0 m = vals.map some := by
  obtain ⟨hlen, _⟩ := defined_start hv hm
  rw [← hm]
  apply List.ext_getElem?
  intro j
  unfold channelWindow
  by_cases hj : j < T
  · rw [List.getElem?_map, List.getElem?_range hj, List.getElem?_take_of_lt hj]
    have hjl : j < m.length := by omega
    simp [List.getElem?_eq_getElem hjl]
  · rw [List.getElem?_eq_none (by simp; omega), List.getElem?_eq_none (by simp; omega)]


/-! ## The de-interleaved block when `count` is the channel count -/

/-- With `count = channels = c` two turns `i, k < c * T` of the de-interleave
loop with the same destination are the same turn. -/
theorem dest_injective (T c i k : Nat) (hc : 0 < c) (hi : i < c * T) (hk : k < c * T)
    (h : (i % c) * T + i / c = (k % c) * T + k / c) : i = k := by
  have hT : 0 < T := by
    rcases Nat.eq_zero_or_pos T with h0 | h0
    · subst h0
      simp at hi
    · exact h0
  have hi2 : i / c < T := (Nat.div_lt_iff_lt_mul hc).mpr (by rw [Nat.mul_comm] at hi; exact hi)
  have hk2 : k / c < T := (Nat.div_lt_iff_lt_mul hc).mpr (by rw [Nat.mul_comm] at hk; exact hk)
  have hmod : ∀ a b : Nat, b < T → (a * T + b) % T = b := by
    intro a b hb
    rw [Nat.add_comm, Nat.add_mul_mod_self_right, Nat.mod_eq_of_lt hb]
  have hdiv : ∀ a b : Nat, b < T → (a * T + b) / T = a := by
    intro a b hb
    rw [Nat.add_comm, Nat.add_mul_div_right _ _ hT, Nat.div_eq_of_lt hb, Nat.zero_add]
  have e1 : i / c = k / c := by
    have := congrArg (fun x => x % T) h
    simp only [hmod _ _ hi2, hmod _ _ hk2] at this
    exact this
  have e2 : i % c = k % c := by
    have := congrArg (fun x => x / T) h
    simp only [hdiv _ _ hi2, hdiv _ _ hk2] at this
    exact this
  rw [← Nat.div_add_mod i c, ← Nat.div_add_mod k c, e1, e2]

/-- With `count = channels = c` and `c * T` floats allocated the de-interleave
loop returns a block of `c * T` floats in which the destination of turn `i`
holds `buffer[i]`. -/
theorem deinterleave_layout (T c : Nat) (hc : 0 < c) (buf : List (Cell α))
    (hlen : c * T ≤ buf.length) :
    ∃ D, deinterleave (T : Int) (c : Int) (c : Int) buf = some D ∧ D.length = c * T ∧
      ∀ i, i < c * T → D[(i % c) * T + i / c]? = some (buf.getD i none) := by
  have e1 : ((T : Int) * (c : Int)).toNat = c * T := by
    rw [← Int.natCast_mul, Int.toNat_ofNat, Nat.mul_comm]
  have e2 : ((c : Int) * (T : Int)).toNat = c * T := by
    rw [← Int.natCast_mul, Int.toNat_ofNat]
  have hnew : newFloatInt α ((T : Int) * (c : Int)) =
      some (List.replicate (c * T) none) := by
    unfold newFloatInt
    rw [if_pos (by positivity), e1]
  unfold deinterleave
  simp only [hnew, e2]
  exact foldlM_range_completes
    (deinterleaveStep (T : Int) (c : Int) (c : Int) buf)
    (fun k (D : List (Cell α)) => D.length = c * T ∧
      ∀ i, i < k → i < c * T → D[(i % c) * T + i / c]? = some (buf.getD i none))
    (c * T)
    (by
      intro k D hk hP
      obtain ⟨hPl, hPd⟩ := hP
      have hdest := dest_lt T c k hc hk
      rw [deinterleaveStep_natural, if_pos ⟨by omega, by omega⟩]
      refine ⟨_, rfl, by simp [hPl], ?_⟩
      intro i hi hiT
      rcases Nat.lt_succ_iff_lt_or_eq.mp hi with hlt | heq
      · have hne : (k % c) * T + k / c ≠ (i % c) * T + i / c := by
          intro h
          have := dest_injective T c k i hc hk hiT h
          omega
        rw [List.getElem?_set_ne hne]
        exact hPd i hlt hiT
      · subst heq
        rw [List.getElem?_set_self (by omega)])
    (List.replicate (c * T) none) ⟨by simp, by intro i hi; omega⟩
    |>.imp (fun D hD => ⟨hD.1, hD.2.1, fun i hi => hD.2.2 i hi hi⟩)

/-- Segment `ch` of that block is the window of channel `ch`: the slots
`buffer[ch], buffer[c + ch], buffer[2c + ch], ...`. -/
theorem segment_is_channelWindow (T c ch : Nat) (hch : ch < c) (buf D : List (Cell α))
    (hD : ∀ i, i < c * T → D[(i % c) * T + i / c]? = some (buf.getD i none)) :
    (D.drop (ch * T)).take T = channelWindow T c ch buf := by
  have hc : 0 < c := by omega
  apply List.ext_getElem?
  intro j
  unfold channelWindow
  by_cases hj : j < T
  · have hi : j * c + ch < c * T := by
      have h1 : (j + 1) * c ≤ T * c := Nat.mul_le_mul_right _ hj
      rw [Nat.add_mul, Nat.one_mul, Nat.mul_comm T c] at h1
      omega
    have e1 : (j * c + ch) % c = ch := by
      rw [Nat.add_comm, Nat.add_mul_mod_self_right, Nat.mod_eq_of_lt hch]
    have e2 : (j * c + ch) / c = j := by
      rw [Nat.add_comm, Nat.add_mul_div_right _ _ hc, Nat.div_eq_of_lt hch, Nat.zero_add]
    have := hD (j * c + ch) hi
    rw [e1, e2] at this
    rw [List.getElem?_take_of_lt hj, List.getElem?_drop, this, List.getElem?_map,
      List.getElem?_range hj]
    rfl
  · have hseg : ch * T + T ≤ c * T := by
      have : (ch + 1) * T ≤ c * T := Nat.mul_le_mul_right _ hch
      rw [Nat.add_mul, Nat.one_mul] at this
      exact this
    rw [List.getElem?_eq_none (by simp; omega), List.getElem?_eq_none (by simp; omega)]

/-- The frame a transform reads for segment `ch` of that block is the window of
channel `ch`. -/
theorem segmentFrame_is_channelWindow (T c ch : Nat) (hch : ch < c) (buf D : List (Cell α))
    (hDl : D.length = c * T)
    (hD : ∀ i, i < c * T → D[(i % c) * T + i / c]? = some (buf.getD i none)) :
    segmentFrame D T ch = (allDefined (channelWindow T c ch buf)).getD [] := by
  have hseg : ch * T + T ≤ c * T := by
    have : (ch + 1) * T ≤ c * T := Nat.mul_le_mul_right _ hch
    rw [Nat.add_mul, Nat.one_mul] at this
    exact this
  have hcast : ((ch : Int) * (T : Int)) = ((ch * T : Nat) : Int) := by push_cast; rfl
  unfold segmentFrame readFrame
  rw [hcast]
  simp only [Int.toNat_ofNat, Int.natCast_nonneg, true_and]
  rw [if_pos (by omega), segment_is_channelWindow T c ch hch buf D hD]

/-! ## `Copy` from the buffer's own store -/

/-- Outside `WIN32`, where `CopyFloat` is `memmove`: for every buffer, offset
`k ≥ 0` and length `n ≥ 0` below the array size limit with `k + n` inside the
backing store, `Copy` whose source is the buffer's own store at offset `k`
returns, leaves `Samples() == n` and the first `n` floats equal to the slice
`[k, k + n)` as it was before the call, and ends in the same buffer as `Copy`
from a separate array holding that slice. -/
theorem CopyFromOwnStore_memmove (s : Buffer α) (k n : Int) (hk : 0 ≤ k) (hn : 0 ≤ n)
    (hlim : n < 2305843009213693952) (hkn : k + n ≤ s.mem.length) :
    ∃ s', s.CopyFromOwnStore false k n = some s' ∧ s'.Samples = n ∧
      s'.mem.take n.toNat = (s.mem.drop k.toNat).take n.toNat ∧
      s.Copy ((s.mem.drop k.toNat).take n.toNat) n = some s' := by
  have hsrc : n.toNat ≤ (s.mem.drop k.toNat).length := by
    rw [List.length_drop]
    omega
  have hlen : (((s.mem.drop k.toNat).take n.toNat).length : Int) = n := by
    rw [List.length_take, Nat.min_eq_left hsrc]
    omega
  have htake : ∀ dst : List (Cell α),
      CopyFloat dst 0 ((s.mem.drop k.toNat).take n.toNat) n =
        CopyFloat dst 0 (s.mem.drop k.toNat) n := by
    intro dst
    rw [CopyFloat_zero, CopyFloat_zero, List.take_take, Nat.min_self, List.length_take,
      Nat.min_eq_left hsrc]
    by_cases hd : n.toNat ≤ dst.length
    · rw [if_pos ⟨hn, le_refl _, hd⟩, if_pos ⟨hn, hsrc, hd⟩]
    · rw [if_neg (fun h => hd h.2.2), if_neg (fun h => hd h.2.2)]
  have hown : s.CopyFromOwnStore false k n =
      s.Copy ((s.mem.drop k.toNat).take n.toNat) n := by
    unfold Buffer.CopyFromOwnStore Buffer.Copy
    rw [if_pos ⟨hk, by omega⟩]
    by_cases hgt : n > s.internalBufferSize
    · rw [if_pos hgt, if_pos hgt]
      cases hf : newFloat α n with
      | none => rfl
      | some fresh => simp only [htake fresh]
    · rw [if_neg hgt, if_neg hgt]
      have hw : CopyFloatWithin false s.mem k n =
          CopyFloat s.mem 0 (s.mem.drop k.toNat) n := by
        unfold CopyFloatWithin
        rw [if_pos ⟨hk, by omega⟩, if_neg (by simp)]
      rw [hw, htake s.mem]
  have hex : ∃ s', s.Copy ((s.mem.drop k.toNat).take n.toNat) n = some s' := by
    unfold Buffer.Copy
    split_ifs with hgt
    · have hf : newFloat α n = some (List.replicate n.toNat none) := by
        simp [newFloat, hn, hlim]
      simp only [hf]
      rw [CopyFloat_total (List.replicate n.toNat none) _ n hn (by omega) (by simp)]
      exact ⟨_, rfl⟩
    · rw [CopyFloat_total s.mem _ n hn (by omega) (by omega)]
      exact ⟨_, rfl⟩
  obtain ⟨s', hs'⟩ := hex
  have c := Copy_spec hlen hs'
  exact ⟨s', hown.trans hs', c.1, c.2.1, hs'⟩

/-- C12 at its failing input: after `Copy(a, 4); SetSamples(0); Append(b, 2)` on a
new buffer (`appendInPlaceState`, reachable through well-formed calls) the
tracked capacity is 6 while the backing store holds 4 floats, and
`Append(c, 4)`, which fits the tracked capacity (`2 + 4 ≤ 6`), takes the
in-place branch and writes the 16 bytes from byte 2 on of a store of 16
bytes. -/
theorem C12_capacity_exceeds_allocation :
    Reachable appendInPlaceState ∧
    (Buffer.new : Buffer ℚ).run appendInPlaceCalls = some appendInPlaceState ∧
    appendInPlaceState.internalBufferSize = 6 ∧
    appendInPlaceState.mem.length = 4 ∧
    ¬ (appendInPlaceState.internalBufferSize = appendInPlaceState.mem.length) ∧
    ¬ (appendInPlaceState.sampleSize + 4 > appendInPlaceState.internalBufferSize) ∧
    CopyFloat appendInPlaceState.mem appendInPlaceState.sampleSize
      [some 7, some 8, some 9, some 10] 4 = none ∧
    appendInPlaceState.Append [some 7, some 8, some 9, some 10] 4 = none :=
  ⟨Reachable_run Reachable.new appendInPlaceCalls appendInPlaceState
      appendInPlaceCalls_wellFormed appendInPlaceCalls_run,
    appendInPlaceCalls_run, by decide, by decide, by decide, by decide, by decide,
    by decide⟩

/-! ## Exact-fit growth -/

/-- In a state reached through calls that return the tracked capacity covers
the logical length. -/
theorem reachable_length_le_capacity {s : Buffer α} (h : Reachable s) :
    s.sampleSize ≤ s.internalBufferSize := by
  induction h with
  | new => simp [Buffer.new]
  | call op _ hwf hstep ih => exact (step_capacity hwf hstep).2 ih

/-- C16: in every state a newly constructed buffer reaches through the public
operations (`SetSamples`, `SetChannels`, `Copy`, `Append`, `CopyFormat`,
`SetSampleRate`, `SetPosition`, writes through `BufferPointer()`) with
non-negative sample counts, each call returning, `SetChannels(v)` returns and
changes only the channel count: `Samples()`, the capacity, the sample rate, the
position and the backing store with every float in it are as before, the
capacity re-check finding nothing to reallocate. -/
theorem C16_SetChannels_changes_only_channels (s : Buffer α) (h : Reachable s) (v : Int) :
    ∃ s', s.SetChannels v = some s' ∧ s'.Channels = v ∧ s'.Samples = s.Samples ∧
      s'.internalBufferSize = s.internalBufferSize ∧ s'.SampleRate = s.SampleRate ∧
      s'.buffer = s.buffer ∧ s'.position = s.position := by
  have hle := reachable_length_le_capacity h
  have hng : ¬ (s.sampleSize > s.internalBufferSize) := by omega
  refine ⟨{ s with channels := v }, ?_, rfl, rfl, rfl, rfl, rfl, rfl⟩
  unfold Buffer.SetChannels Buffer.ResizeBuffer
  simp only [if_neg hng]

/-- The calls of `mixedCalls` are well formed. -/
theorem mixedCalls_wellFormed : ∀ op ∈ mixedCalls, op.wellFormed := by
  intro op hop
  simp only [mixedCalls, List.mem_cons, List.mem_singleton, List.not_mem_nil,
    or_false] at hop
  rcases hop with rfl | rfl | rfl | rfl | rfl <;> simp [Op.wellFormed]

/-- A new buffer completes `mixedCalls` and ends in `mixedState`. -/
theorem mixedCalls_run : (Buffer.new : Buffer ℚ).run mixedCalls = some mixedState := by
  decide

/-- C16 at the state a new buffer reaches through `Copy(a, 4); SetPosition(3);
SetSampleRate(48000); BufferPointer()[0] = 9; Append(b, 2)`: `SetChannels(1)`
returns and changes the channel count only. -/
theorem C16_SetChannels_changes_only_channels_witness :
    Reachable mixedState ∧
    mixedState.SetChannels 1 = some { mixedState with channels := 1 } ∧
    ∃ s', mixedState.SetChannels 1 = some s' ∧ s'.Channels = 1 ∧
      s'.Samples = mixedState.Samples ∧
      s'.internalBufferSize = mixedState.internalBufferSize ∧
      s'.SampleRate = mixedState.SampleRate ∧
      s'.buffer = mixedState.buffer ∧ s'.position = mixedState.position :=
  ⟨Reachable_run Reachable.new mixedCalls mixedState mixedCalls_wellFormed mixedCalls_run,
    by decide,
    C16_SetChannels_changes_only_channels mixedState
      (Reachable_run Reachable.new mixedCalls mixedState mixedCalls_wellFormed mixedCalls_run)
      1⟩

/-! ## The de-interleave loop: bounds -/

/-- Bounds of turn `i` of the de-interleave loop on natural numbers: with
`T ≤ n / c` and `count = n / T`, every `i < count * T` is below `n` and its
destination is below `count * T`. -/
theorem dest_in_bounds (T c n i : Nat) (hT : 0 < T) (hc : 1 ≤ c) (hg : T ≤ n / c)
    (hi : i < n / T * T) :
    i < n ∧ (i % c) * T + i / (n / T) < n / T * T := by
  have hle : n / T * T ≤ n := Nat.div_mul_le_self n T
  have hcT : c * T ≤ n := by
    have := (Nat.le_div_iff_mul_le hc).mp hg
    rw [Nat.mul_comm]
    exact this
  have hcount : c ≤ n / T := (Nat.le_div_iff_mul_le hT).mpr hcT
  have hpos : 0 < n / T := by omega
  have h1 : i % c < c := Nat.mod_lt _ hc
  have h2 : i / (n / T) < T := (Nat.div_lt_iff_lt_mul hpos).mpr (by
    rw [Nat.mul_comm] at hi
    exact hi)
  have h3 : (i % c) * T ≤ (c - 1) * T := Nat.mul_le_mul_right _ (by omega)
  have h4 : (c - 1) * T + T = c * T := by
    have : c - 1 + 1 = c := by omega
    calc (c - 1) * T + T = (c - 1 + 1) * T := by rw [Nat.add_mul, Nat.one_mul]
      _ = c * T := by rw [this]
  have h5 : c * T ≤ n / T * T := Nat.mul_le_mul_right _ hcount
  exact ⟨by omega, by omega⟩

/-- The de-interleave loop completes, on a block of `count * T` floats, whenever
the store holds the `n` floats of the logical content (`T ≤ n / c`,
`count = n / T`). -/
theorem deinterleave_completes (T c n : Nat) (hT : 0 < T) (hc : 1 ≤ c) (hg : T ≤ n / c)
    (buf : List (Cell α)) (hbuf : n ≤ buf.length) :
    ∃ D, deinterleave (T : Int) (c : Int) ((n / T : Nat) : Int) buf = some D ∧
      D.length = n / T * T := by
  have e1 : ((T : Int) * ((n / T : Nat) : Int)).toNat = n / T * T := by
    rw [← Int.natCast_mul, Int.toNat_ofNat, Nat.mul_comm]
  have e2 : (((n / T : Nat) : Int) * (T : Int)).toNat = n / T * T := by
    rw [← Int.natCast_mul, Int.toNat_ofNat]
  have hnew : newFloatInt α ((T : Int) * ((n / T : Nat) : Int)) =
      some (List.replicate (n / T * T) none) := by
    unfold newFloatInt
    rw [if_pos (by positivity), e1]
  unfold deinterleave
  simp only [hnew, e2]
  exact foldlM_range_completes
    (deinterleaveStep (T : Int) (c : Int) ((n / T : Nat) : Int) buf)
    (fun _ (D : List (Cell α)) => D.length = n / T * T)
    (n / T * T)
    (by
      intro k D hk hP
      obtain ⟨hkn, hdest⟩ := dest_in_bounds T c n k hT hc hg hk
      rw [deinterleaveStep_natural, if_pos ⟨by omega, by omega⟩]
      exact ⟨_, rfl, by simp [hP]⟩)
    (List.replicate (n / T * T) none) (by simp)

/-- C17: for a buffer with `channels = c ≥ 1`, `sampleSize ≥ 0` and
`sampleSize / c ≥ FFT_BUFFER_SIZE > 0`, with `count = sampleSize / FFT_BUFFER_SIZE`,
every loop index `i < count * FFT_BUFFER_SIZE` is below `sampleSize`, and its write
index `(i % c) * FFT_BUFFER_SIZE + i / count` lies in `[0, count * FFT_BUFFER_SIZE)`;
so the loop completes, on a block of `count * FFT_BUFFER_SIZE` floats, whenever the
logical content is allocated. -/
theorem C17_deinterleave_in_bounds (FFT_BUFFER_SIZE : Int) (s : Buffer α)
    (hT : 0 < FFT_BUFFER_SIZE) (hc : 1 ≤ s.channels) (hs : 0 ≤ s.sampleSize)
    (hg : FFT_BUFFER_SIZE ≤ s.sampleSize.tdiv s.channels) :
    (∀ i : Nat, (i : Int) < s.sampleSize.tdiv FFT_BUFFER_SIZE * FFT_BUFFER_SIZE →
      (i : Int) < s.sampleSize ∧
      0 ≤ Int.tmod i s.channels * FFT_BUFFER_SIZE +
        Int.tdiv i (s.sampleSize.tdiv FFT_BUFFER_SIZE) ∧
      Int.tmod i s.channels * FFT_BUFFER_SIZE +
        Int.tdiv i (s.sampleSize.tdiv FFT_BUFFER_SIZE) <
          s.sampleSize.tdiv FFT_BUFFER_SIZE * FFT_BUFFER_SIZE) ∧
    (s.sampleSize ≤ s.mem.length →
      ∃ D, deinterleave FFT_BUFFER_SIZE s.channels
          (s.sampleSize.tdiv FFT_BUFFER_SIZE) s.mem = some D ∧
        (D.length : Int) = s.sampleSize.tdiv FFT_BUFFER_SIZE * FFT_BUFFER_SIZE) := by
  obtain ⟨T, rfl⟩ := Int.eq_ofNat_of_zero_le hT.le
  obtain ⟨c, hcn⟩ := Int.eq_ofNat_of_zero_le (le_trans (by decide : (0 : Int) ≤ 1) hc)
  obtain ⟨n, hnn⟩ := Int.eq_ofNat_of_zero_le hs
  rw [hcn, hnn] at hg
  rw [hcn, hnn]
  rw [hcn] at hc
  have hT' : 0 < T := by omega
  have hc' : 1 ≤ c := by omega
  have hg' : T ≤ n / c := by
    rw [← Int.ofNat_tdiv] at hg
    omega
  have hcount : Int.tdiv (n : Int) (T : Int) = ((n / T : Nat) : Int) :=
    (Int.ofNat_tdiv n T).symm
  rw [hcount]
  refine ⟨?_, ?_⟩
  · intro i hi
    have hi' : i < n / T * T := by
      rw [← Int.natCast_mul] at hi
      omega
    obtain ⟨h1, h2⟩ := dest_in_bounds T c n i hT' hc' hg' hi'
    have e : Int.tmod (i : Int) (c : Int) * (T : Int) +
        Int.tdiv (i : Int) ((n / T : Nat) : Int) =
        (((i % c) * T + i / (n / T) : Nat) : Int) := by
      rw [← Int.ofNat_tdiv, ← Int.ofNat_tmod]
      push_cast
      rfl
    rw [e, ← Int.natCast_mul]
    exact ⟨by omega, Int.natCast_nonneg _, Int.ofNat_lt.mpr h2⟩
  · intro hal
    obtain ⟨D, hD, hl⟩ := deinterleave_completes T c n hT' hc' hg' s.mem (by omega)
    refine ⟨D, hD, ?_⟩
    rw [hl]
    push_cast
    rfl

/-- C17 at the stereo buffer `stereoEight` with `FFT_BUFFER_SIZE = 2`
(`count = 4`). -/
theorem C17_deinterleave_in_bounds_witness :
    (0 : Int) < 2 ∧ 1 ≤ stereoEight.channels ∧ 0 ≤ stereoEight.sampleSize ∧
    (2 : Int) ≤ stereoEight.sampleSize.tdiv stereoEight.channels ∧
    stereoEight.sampleSize.tdiv 2 = 4 ∧
    ((∀ i : Nat, (i : Int) < stereoEight.sampleSize.tdiv 2 * 2 →
      (i : Int) < stereoEight.sampleSize ∧
      0 ≤ Int.tmod i stereoEight.channels * 2 +
        Int.tdiv i (stereoEight.sampleSize.tdiv 2) ∧
      Int.tmod i stereoEight.channels * 2 +
        Int.tdiv i (stereoEight.sampleSize.tdiv 2) <
          stereoEight.sampleSize.tdiv 2 * 2) ∧
    (stereoEight.sampleSize ≤ stereoEight.mem.length →
      ∃ D, deinterleave 2 stereoEight.channels
          (stereoEight.sampleSize.tdiv 2) stereoEight.mem = some D ∧
        (D.length : Int) = stereoEight.sampleSize.tdiv 2 * 2)) :=
  ⟨by decide, by decide, by decide, by decide, by decide,
    C17_deinterleave_in_bounds 2 stereoEight (by decide) (by decide) (by decide)
      (by decide)⟩

/-! ## The de-interleave loop: layout and coverage -/

/-- C13 at its failing input: the stereo buffer `stereoEight` holds four frames,
`0 .. 7` interleaved, and `FFT_BUFFER_SIZE = 2`.  The guard of `Fft` passes
(`8 / 2 = 4 ≥ 2`), `count = 8 / 2 = 4`, and the loop leaves
`deinterleaved = 2, 6, 3, 7` followed by four slots never written: slot
`0 * 2 + 0` holds `buffer[2]`, not `buffer[0 * 2 + 0]`, and slot `0 * 2 + 1`
holds `buffer[6]`, not `buffer[1 * 2 + 0]`. -/
theorem C13_deinterleave_layout_stereo_eight :
    stereoEight.channels = 2 ∧
    ¬ (stereoEight.sampleSize.tdiv stereoEight.channels < 2 ∨ (2 : Int) ≠ 2) ∧
    stereoEight.sampleSize.tdiv 2 = 4 ∧
    deinterleave 2 stereoEight.channels (stereoEight.sampleSize.tdiv 2) stereoEight.mem =
      some [some 2, some 6, some 3, some 7, none, none, none, none] ∧
    stereoEight.mem[0 * 2 + 0]? = some (some 0) ∧
    stereoEight.mem[1 * 2 + 0]? = some (some 2) ∧
    ¬ (∀ D, deinterleave 2 stereoEight.channels (stereoEight.sampleSize.tdiv 2)
          stereoEight.mem = some D →
        ∀ ch t : Nat, ch < 2 → t < 2 → D[ch * 2 + t]? = stereoEight.mem[t * 2 + ch]?) := by
  refine ⟨by decide, by decide, by decide, by decide, by decide, by decide, ?_⟩
  intro h
  have h0 := h [some 2, some 6, some 3, some 7, none, none, none, none] (by decide) 0 0
    (by decide) (by decide)
  exact absurd h0 (by decide)

/-- C18 at its failing input: on the stereo buffer `stereoEight` with
`FFT_BUFFER_SIZE = 2` the guard of `Fft` passes and `count = 4`, so the transform
loop reads segments 1, 2 and 3, slots `2 .. 7` of `deinterleaved`.  No loop index
`i < 8` has a write index `(i % 2) * 2 + i / 4` of 4 or more: slots `4 .. 7` are
never written, the read of segment 2 finds indeterminate floats, and the call
leaves defined behaviour. -/
theorem C18_segments_never_written_stereo_eight :
    stereoEight.channels = 2 ∧
    ¬ (stereoEight.sampleSize.tdiv stereoEight.channels < 2 ∨ (2 : Int) ≠ 2) ∧
    stereoEight.sampleSize.tdiv 2 = 4 ∧
    (∀ i : Nat, i < 8 → Int.tmod i 2 * 2 + Int.tdiv i 4 < 4) ∧
    deinterleave 2 stereoEight.channels (stereoEight.sampleSize.tdiv 2) stereoEight.mem =
      some [some 2, some 6, some 3, some 7, none, none, none, none] ∧
    readFrame [some 2, some 6, some 3, some 7, none, none, none, (none : Cell ℚ)]
      (2 * 2) 2 = none ∧
    stereoEight.Fft 2 id [none, none] 2 = none := by
  refine ⟨by decide, by decide, by decide, by decide, by decide, by decide, by decide⟩

/-! ## The averaging loop -/

section Averaging

variable [Add α] [Div α] [OfNat α 2]

/-- The averaging loop over two fully defined frames of `T` floats leaves the
slot-wise half sums. -/
theorem average_exact (T : Nat) (sv bv : List α) (hs : sv.length = T) (hb : bv.length = T) :
    (List.range T).foldlM (averageStep (sv.map some)) (bv.map some) =
      some ((List.zipWith (fun x y => (x + y) / 2) sv bv).map some) := by
  obtain ⟨b', h, hl, hlow, _⟩ := foldlM_range_completes (averageStep (sv.map some))
    (fun k (b : List (Cell α)) => b.length = T ∧
      (∀ j, j < k → b[j]? = ((List.zipWith (fun x y => (x + y) / 2) sv bv)[j]?).map some) ∧
      (∀ j, k ≤ j → b[j]? = (bv[j]?).map some))
    T
    (by
      intro k b hk hP
      obtain ⟨hPl, hPlow, hPhigh⟩ := hP
      have hks : k < sv.length := by omega
      have hkb : k < bv.length := by omega
      have h1 : (sv.map some)[k]? = some (some sv[k]) := by
        rw [List.getElem?_map, List.getElem?_eq_getElem hks]
        rfl
      have h2 : b[k]? = some (some bv[k]) := by
        rw [hPhigh k (le_refl _), List.getElem?_eq_getElem hkb]
        rfl
      refine ⟨b.set k (some ((sv[k] + bv[k]) / 2)), by simp only [averageStep, h1, h2],
        by simp [hPl], ?_, ?_⟩
      · intro j hj
        rcases Nat.lt_succ_iff_lt_or_eq.mp hj with hjk | hjk
        · rw [List.getElem?_set_ne (by omega)]
          exact hPlow j hjk
        · subst hjk
          rw [List.getElem?_set_self (by omega), List.getElem?_zipWith,
            List.getElem?_eq_getElem hks, List.getElem?_eq_getElem hkb]
          rfl
      · intro j hj
        rw [List.getElem?_set_ne (by omega)]
        exact hPhigh j (by omega))
    (bv.map some) ⟨by simp [hb], by intro j hj; omega, by intro j _; simp⟩
  rw [h]
  congr 1
  apply List.ext_getElem?
  intro j
  by_cases hj : j < T
  · rw [hlow j hj, List.getElem?_map]
  · rw [List.getElem?_eq_none (by omega), List.getElem?_eq_none (by simp; omega)]

/-- The running average of frames of `T` floats is a frame of `T` floats. -/
theorem runningAverage_length (T : Nat) (first : List α) (rest : List (List α))
    (hf : first.length = T) (hr : ∀ f ∈ rest, f.length = T) :
    (runningAverage first rest).length = T := by
  unfold runningAverage
  induction rest generalizing first with
  | nil => exact hf
  | cons f fs ih =>
    rw [List.foldl_cons]
    exact ih _ (by simp [hf, hr f (List.mem_cons_self _ _)])
      (fun g hg => hr g (List.mem_cons_of_mem _ hg))

/-- The segment loop over fully defined segments, from a scratch block of `T`
floats and a fully defined frame `bv` of `T` floats, completes and leaves in
`buffer` the running pairwise average of `bv` and the transforms of the
segments, in the order of the loop. -/
theorem segments_exact (T : Nat) (fft_perform : List α → List α)
    (hF : ∀ xs : List α, xs.length = T → (fft_perform xs).length = T)
    (D : List (Cell α)) (segments : List Nat)
    (hseg : ∀ i ∈ segments, ∃ frame,
      readFrame D ((i : Int) * (T : Int)) (T : Int) = some frame ∧ frame.length = T)
    (scratch : List (Cell α)) (hsl : scratch.length = T)
    (bv : List α) (hbl : bv.length = T) :
    ∃ scratch', segments.foldlM (segmentStep (T : Int) fft_perform D)
        (scratch, bv.map some) =
      some (scratch', (runningAverage bv
        (segments.map (fun i => fft_perform (segmentFrame D T i)))).map some) := by
  induction segments generalizing scratch bv with
  | nil => exact ⟨scratch, rfl⟩
  | cons i rest ih =>
    obtain ⟨frame, hframe, hfl⟩ := hseg i (List.mem_cons_self _ _)
    have hwl := hF frame hfl
    have hsf : segmentFrame D T i = frame := by
      unfold segmentFrame
      rw [hframe]
      rfl
    have hstep : segmentStep (T : Int) fft_perform D (scratch, bv.map some) i =
        some ((fft_perform frame).map some,
          (List.zipWith (fun x y => (x + y) / 2) (fft_perform frame) bv).map some) := by
      unfold segmentStep
      simp only [hframe]
      unfold writeFrame
      rw [if_pos (by omega), List.drop_of_length_le (by omega), List.append_nil]
      simp only [Int.toNat_ofNat, average_exact T (fft_perform frame) bv hwl hbl]
    obtain ⟨scratch', hrest⟩ := ih (fun j hj => hseg j (List.mem_cons_of_mem _ hj))
      ((fft_perform frame).map some) (by simp [hwl])
      (List.zipWith (fun x y => (x + y) / 2) (fft_perform frame) bv) (by simp [hwl, hbl])
    refine ⟨scratch', ?_⟩
    rw [List.foldlM_cons, hstep]
    simp only [Option.bind_eq_bind, Option.some_bind]
    rw [hrest]
    simp only [runningAverage, List.map_cons, List.foldl_cons, hsf]

end Averaging

/-! ## The output of `Fft` as a running pairwise average -/

/-- Every turn of a completed fold completed from some state. -/
theorem foldlM_some_step {β γ : Type} (f : β → γ → Option β) :
    ∀ (l : List γ) (b r : β), l.foldlM f b = some r →
      ∀ x ∈ l, ∃ b1 b2, f b1 x = some b2 := by
  intro l
  induction l with
  | nil =>
    intro _ _ _ x hx
    exact absurd hx (List.not_mem_nil x)
  | cons y rest ih =>
    intro b r h x hx
    rw [List.foldlM_cons] at h
    cases hy : f b y with
    | none => simp [hy] at h
    | some b' =>
      simp only [hy, Option.bind_eq_bind, Option.some_bind] at h
      rcases List.mem_cons.mp hx with rfl | hx'
      · exact ⟨b, b', hy⟩
      · exact ih b' r h x hx'

/-- A frame read by a transform has the length asked for. -/
theorem readFrame_length {m : List (Cell α)} {off n : Int} {frame : List α}
    (h : readFrame m off n = some frame) : frame.length = n.toNat := by
  unfold readFrame at h
  split_ifs at h with hc
  have := allDefined_eq_some.mp h
  have hl : ((m.drop off.toNat).take n.toNat).length = frame.length := by
    rw [this, List.length_map]
  rw [List.length_take, List.length_drop] at hl
  omega

/-- A completed turn of the segment loop read its segment. -/
theorem segmentStep_reads [Add α] [Div α] [OfNat α 2] {T : Int}
    {fft_perform : List α → List α} {D : List (Cell α)}
    {st st' : List (Cell α) × List (Cell α)} {i : Nat}
    (h : segmentStep T fft_perform D st i = some st') :
    ∃ frame, readFrame D ((i : Int) * T) T = some frame := by
  unfold segmentStep at h
  cases hr : readFrame D ((i : Int) * T) T with
  | none => simp [hr] at h
  | some frame => exact ⟨frame, rfl⟩

section ClosedForm

variable [Field α]

/-- Slot `j` of a slot-wise combination of two frames. -/
theorem zipWith_getD (f : α → α → α) (a b : List α) (j : Nat) (ha : j < a.length)
    (hb : j < b.length) :
    (List.zipWith f a b).getD j 0 = f (a.getD j 0) (b.getD j 0) := by
  simp only [List.getD_eq_getElem?_getD, List.getElem?_zipWith,
    List.getElem?_eq_getElem ha, List.getElem?_eq_getElem hb, Option.getD_some]

/-- The closed form of the running pairwise average: slot `j` is
`F_0[j] / 2^n + Σ_{i < n} F_{i+1}[j] / 2^(n - i)` for `n` further transforms. -/
theorem runningAverage_closed_form (T j : Nat) (hj : j < T) :
    ∀ (rest : List (List α)) (first : List α), first.length = T →
      (∀ f ∈ rest, f.length = T) →
      (runningAverage first rest).getD j 0 =
        first.getD j 0 / 2 ^ rest.length +
          Finset.sum (Finset.range rest.length)
            (fun i => (rest.getD i []).getD j 0 / 2 ^ (rest.length - i)) := by
  intro rest
  induction rest with
  | nil =>
    intro first _ _
    simp [runningAverage]
  | cons f fs ih =>
    intro first hf hr
    have hfl : f.length = T := hr f (List.mem_cons_self _ _)
    have hstep : runningAverage first (f :: fs) =
        runningAverage (List.zipWith (fun x y => (x + y) / 2) f first) fs := rfl
    rw [hstep, ih _ (by simp [hf, hfl]) (fun g hg => hr g (List.mem_cons_of_mem _ hg)),
      zipWith_getD _ f first j (by omega) (by omega), List.length_cons,
      Finset.sum_range_succ']
    have hsum : Finset.sum (Finset.range fs.length)
          (fun i => ((f :: fs).getD (i + 1) []).getD j 0 / 2 ^ (fs.length + 1 - (i + 1))) =
        Finset.sum (Finset.range fs.length)
          (fun i => (fs.getD i []).getD j 0 / 2 ^ (fs.length - i)) := by
      apply Finset.sum_congr rfl
      intro i _
      simp
    rw [hsum]
    simp only [List.getD_cons_zero, Nat.sub_zero]
    ring

end ClosedForm

section NotTheMean

variable [Field α] [CharZero α]

/-- From three transforms on, the running pairwise average is not the
arithmetic mean: for transforms `0, ..., 0, 1` of one float the running average
is `1 / 2` and the mean is `1 / count`. -/
theorem runningAverage_ne_frameMean (m : Nat) (hm : 3 ≤ m) :
    ∃ (first : List α) (rest : List (List α)), rest.length + 1 = m ∧
      runningAverage first rest ≠ frameMean first rest := by
  obtain ⟨k, rfl⟩ : ∃ k, m = k + 2 := ⟨m - 2, by omega⟩
  have hzero : ∀ n : Nat, List.foldl
      (fun out f => List.zipWith (fun x y => (x + y) / 2) f out) ([0] : List α)
      (List.replicate n [0]) = [0] := by
    intro n
    induction n with
    | zero => rfl
    | succ n ih =>
      rw [List.replicate_succ, List.foldl_cons]
      simpa using ih
  have hsum : ∀ n : Nat, List.foldl
      (fun acc f => List.zipWith (fun x y => x + y) f acc) ([0] : List α)
      (List.replicate n [0]) = [0] := by
    intro n
    induction n with
    | zero => rfl
    | succ n ih =>
      rw [List.replicate_succ, List.foldl_cons]
      simpa using ih
  refine ⟨[0], List.replicate k [0] ++ [[1]], by simp, ?_⟩
  intro h
  unfold runningAverage frameMean at h
  rw [List.foldl_append, List.foldl_append, hzero, hsum] at h
  simp only [List.foldl_cons, List.foldl_nil, List.zipWith_cons_cons, List.zipWith_nil_right,
    List.map_cons, List.map_nil, List.cons.injEq, and_true, List.length_append,
    List.length_replicate, List.length_singleton, add_zero] at h
  have h2 : ((2 : Nat) : α) ≠ 0 := Nat.cast_ne_zero.mpr (by decide)
  have hk : ((k + 1 + 1 : Nat) : α) ≠ 0 := Nat.cast_ne_zero.mpr (by omega)
  have h2' : (2 : α) = ((2 : Nat) : α) := by norm_num
  rw [h2', div_eq_div_iff h2 hk, one_mul, one_mul] at h
  have := Nat.cast_injective h
  omega

end NotTheMean

section RunningAverage

variable [Field α] [CharZero α]

/-- C14: over exact arithmetic (a field of characteristic 0) and for a transform
that writes `FFT_BUFFER_SIZE` values into a caller's frame of `FFT_BUFFER_SIZE`
floats, whenever `Fft` returns `true`, with `count = sampleSize / FFT_BUFFER_SIZE`:
the output is the running pairwise average `out_0 = F_0`,
`out_i = (F_i + out_{i-1}) / 2` for `i = 1 .. count - 1`, where `F_0` is the first
transform (of the frame read at `this->buffer`) and `F_i` the transform of segment
`i` of the de-interleaved block; equivalently
`output[j] = F_0[j] / 2^(count-1) + Σ_{i=1..count-1} F_i[j] / 2^(count-i)`; and from
three transforms on a running pairwise average is not the arithmetic mean. -/
theorem C14_Fft_running_average (T : Nat) (fft_perform : List α → List α)
    (hF : ∀ xs : List α, xs.length = T → (fft_perform xs).length = T)
    (s s' : Buffer α) (out out' : List (Cell α)) (hout : out.length = T)
    (hsucc : s.Fft (T : Int) fft_perform out (T : Int) = some (true, s', out')) :
    (∃ D frame,
      deinterleave (T : Int) s.channels (s.sampleSize.tdiv (T : Int)) s.mem = some D ∧
      readFrame s.mem 0 (T : Int) = some frame ∧
      out' = (runningAverage (fft_perform frame)
        ((List.range' 1 ((s.sampleSize.tdiv (T : Int)).toNat - 1)).map
          (fun i => fft_perform (segmentFrame D T i)))).map some ∧
      ∀ j, j < T → out'[j]? = some (some (
        (fft_perform frame).getD j 0 / 2 ^ ((s.sampleSize.tdiv (T : Int)).toNat - 1) +
        Finset.sum (Finset.range ((s.sampleSize.tdiv (T : Int)).toNat - 1))
          (fun i => (fft_perform (segmentFrame D T (i + 1))).getD j 0 /
            2 ^ ((s.sampleSize.tdiv (T : Int)).toNat - 1 - i))))) ∧
    (∀ m, 3 ≤ m → ∃ (first : List α) (rest : List (List α)), rest.length + 1 = m ∧
      runningAverage first rest ≠ frameMean first rest) := by
  refine ⟨?_, runningAverage_ne_frameMean⟩
  unfold Buffer.Fft at hsucc
  split_ifs at hsucc with h0 hg hT0
  · simp at hsucc
  simp only at hsucc
  cases hD : deinterleave (T : Int) s.channels (s.sampleSize.tdiv (T : Int)) s.mem with
  | none => simp [hD] at hsucc
  | some D =>
    simp only [hD] at hsucc
    cases hsc : (if s.sampleSize.tdiv (T : Int) > 1 then newFloatInt α (T : Int)
        else some []) with
    | none => simp [hsc] at hsucc
    | some scratch =>
      simp only [hsc] at hsucc
      cases hfr : readFrame s.mem 0 (T : Int) with
      | none => simp [hfr] at hsucc
      | some frame =>
        simp only [hfr] at hsucc
        cases hw : writeFrame out (fft_perform frame) with
        | none => simp [hw] at hsucc
        | some first =>
          simp only [hw] at hsucc
          cases hfold : (List.range' 1 ((s.sampleSize.tdiv (T : Int)).toNat - 1)).foldlM
              (segmentStep (T : Int) fft_perform D) (scratch, first) with
          | none => simp [hfold] at hsucc
          | some st =>
            simp only [hfold, Option.some.injEq, Prod.mk.injEq, true_and] at hsucc
            obtain ⟨_, hout'⟩ := hsucc
            have hfl : frame.length = T := by
              rw [readFrame_length hfr, Int.toNat_ofNat]
            have hwl := hF frame hfl
            have hfirst : first = (fft_perform frame).map some := by
              unfold writeFrame at hw
              rw [if_pos (by omega), List.drop_of_length_le (by omega),
                List.append_nil] at hw
              exact (Option.some.inj hw).symm
            have hseg : ∀ i ∈ List.range' 1 ((s.sampleSize.tdiv (T : Int)).toNat - 1),
                ∃ fr, readFrame D ((i : Int) * (T : Int)) (T : Int) = some fr ∧
                  fr.length = T := by
              intro i hi
              obtain ⟨b1, b2, hb⟩ := foldlM_some_step _ _ _ _ hfold i hi
              obtain ⟨fr, hfr'⟩ := segmentStep_reads hb
              exact ⟨fr, hfr', by rw [readFrame_length hfr', Int.toNat_ofNat]⟩
            have hrl : ∀ f ∈ (List.range' 1 ((s.sampleSize.tdiv (T : Int)).toNat - 1)).map
                (fun i => fft_perform (segmentFrame D T i)), f.length = T := by
              intro f hf
              obtain ⟨i, hi, rfl⟩ := List.mem_map.mp hf
              obtain ⟨fr, hfr', hfrl⟩ := hseg i hi
              have : segmentFrame D T i = fr := by
                unfold segmentFrame
                rw [hfr']
                rfl
              rw [this]
              exact hF fr hfrl
            have hres : st.2 = (runningAverage (fft_perform frame)
                ((List.range' 1 ((s.sampleSize.tdiv (T : Int)).toNat - 1)).map
                  (fun i => fft_perform (segmentFrame D T i)))).map some := by
              by_cases hcnt : s.sampleSize.tdiv (T : Int) > 1
              · have hsl : scratch.length = T := by
                  rw [if_pos hcnt] at hsc
                  unfold newFloatInt at hsc
                  rw [if_pos (by omega)] at hsc
                  rw [← Option.some.inj hsc]
                  simp
                obtain ⟨scratch', hex⟩ := segments_exact T fft_perform hF D _ hseg scratch hsl
                  (fft_perform frame) hwl
                rw [hfirst, hex] at hfold
                rw [← Option.some.inj hfold]
              · have hnil : (s.sampleSize.tdiv (T : Int)).toNat - 1 = 0 := by omega
                rw [hnil] at hfold ⊢
                simp only [List.range'_zero, List.foldlM_nil, Option.pure_def,
                  Option.some.injEq] at hfold
                rw [← hfold, hfirst]
                rfl
            rw [hres] at hout'
            refine ⟨D, frame, rfl, rfl, hout'.symm, ?_⟩
            intro j hj
            have hral := runningAverage_length T (fft_perform frame) _ hwl hrl
            rw [← hout', List.getElem?_map, List.getElem?_eq_getElem (by omega)]
            have hcf := runningAverage_closed_form T j hj _ (fft_perform frame) hwl hrl
            have hget : (runningAverage (fft_perform frame)
                ((List.range' 1 ((s.sampleSize.tdiv (T : Int)).toNat - 1)).map
                  (fun i => fft_perform (segmentFrame D T i)))).getD j 0 =
                (runningAverage (fft_perform frame)
                ((List.range' 1 ((s.sampleSize.tdiv (T : Int)).toNat - 1)).map
                  (fun i => fft_perform (segmentFrame D T i))))[j] := by
              rw [List.getD_eq_getElem?_getD, List.getElem?_eq_getElem (by omega),
                Option.getD_some]
            have hs : Finset.sum (Finset.range ((s.sampleSize.tdiv (T : Int)).toNat - 1))
                (fun i => (((List.range' 1 ((s.sampleSize.tdiv (T : Int)).toNat - 1)).map
                  (fun i => fft_perform (segmentFrame D T i))).getD i []).getD j 0 /
                    2 ^ ((s.sampleSize.tdiv (T : Int)).toNat - 1 - i)) =
                Finset.sum (Finset.range ((s.sampleSize.tdiv (T : Int)).toNat - 1))
                (fun i => (fft_perform (segmentFrame D T (i + 1))).getD j 0 /
                    2 ^ ((s.sampleSize.tdiv (T : Int)).toNat - 1 - i)) := by
              apply Finset.sum_congr rfl
              intro i hi
              have hi' : i < (s.sampleSize.tdiv (T : Int)).toNat - 1 := Finset.mem_range.mp hi
              simp only [List.getD_eq_getElem?_getD, List.getElem?_map,
                List.getElem?_range' 1 1 hi', Option.map_some', Option.getD_some,
                Nat.one_mul, Nat.add_comm 1 i]
            rw [hget] at hcf
            simp only [List.length_map, List.length_range'] at hcf
            rw [hs] at hcf
            simp only [Option.map_some']
            rw [hcf]

end RunningAverage

/-- On the three-channel buffer `threeChannel` with `FFT_BUFFER_SIZE = 1` and the
identity as transform (`count = 3`, transforms `0, 0, 4`) `Fft` returns `true`
with the output `2`. -/
theorem threeChannel_Fft :
    threeChannel.Fft ((1 : Nat) : Int) id [none] ((1 : Nat) : Int) =
      some (true, threeChannel, [some 2]) := by
  have h : threeChannel.Fft ((1 : Nat) : Int) id [none] ((1 : Nat) : Int) =
      some (true, threeChannel, [some ((4 + (0 + 0) / 2) / 2)]) := by
    rfl
  have e : (((4 : ℚ) + (0 + 0) / 2) / 2) = 2 := by norm_num
  rw [e] at h
  exact h

/-- C14 at the three-channel buffer `threeChannel` with `FFT_BUFFER_SIZE = 1` and
the identity as transform: `count = 3`, the transforms are `0, 0, 4`, the output
is `0 / 4 + 0 / 4 + 4 / 2 = 2`. -/
theorem C14_Fft_running_average_witness :
    (∀ xs : List ℚ, xs.length = 1 → (id xs).length = 1) ∧
    ([none] : List (Cell ℚ)).length = 1 ∧
    threeChannel.Fft ((1 : Nat) : Int) id [none] ((1 : Nat) : Int) =
      some (true, threeChannel, [some 2]) ∧
    (threeChannel.sampleSize.tdiv ((1 : Nat) : Int)).toNat = 3 ∧
    ((∃ D frame,
      deinterleave ((1 : Nat) : Int) threeChannel.channels
        (threeChannel.sampleSize.tdiv ((1 : Nat) : Int)) threeChannel.mem = some D ∧
      readFrame threeChannel.mem 0 ((1 : Nat) : Int) = some frame ∧
      [some (2 : ℚ)] = (runningAverage (id frame)
        ((List.range' 1 ((threeChannel.sampleSize.tdiv ((1 : Nat) : Int)).toNat - 1)).map
          (fun i => id (segmentFrame D 1 i)))).map some ∧
      ∀ j, j < 1 → [some (2 : ℚ)][j]? = some (some (
        (id frame).getD j 0 /
          2 ^ ((threeChannel.sampleSize.tdiv ((1 : Nat) : Int)).toNat - 1) +
        Finset.sum
          (Finset.range ((threeChannel.sampleSize.tdiv ((1 : Nat) : Int)).toNat - 1))
          (fun i => (id (segmentFrame D 1 (i + 1))).getD j 0 /
            2 ^ ((threeChannel.sampleSize.tdiv ((1 : Nat) : Int)).toNat - 1 - i))))) ∧
    (∀ m, 3 ≤ m → ∃ (first : List ℚ) (rest : List (List ℚ)), rest.length + 1 = m ∧
      runningAverage first rest ≠ frameMean first rest)) :=
  ⟨fun _ h => h, by decide, threeChannel_Fft, by decide,
    C14_Fft_running_average 1 id (fun _ h => h) threeChannel threeChannel [none] [some 2]
      (by decide) threeChannel_Fft⟩

/-! ## `Fft` on a buffer of exactly `channels * FFT_BUFFER_SIZE` samples -/

/-- The window of a channel over defined samples has values. -/
theorem channelWindow_defined (T c ch : Nat) (hch : ch < c) (buf : List (Cell α))
    (hcell : ∀ k, k < c * T → ∃ v, buf[k]? = some (some v)) :
    ∃ w, allDefined (channelWindow T c ch buf) = some w ∧ w.length = T := by
  have hl : (channelWindow T c ch buf).length = T := by simp [channelWindow]
  obtain ⟨w, hw, hwl⟩ := allDefined_of_forall (channelWindow T c ch buf) (by
    intro j hj
    rw [hl] at hj
    have hi : j * c + ch < c * T := by
      have h1 : (j + 1) * c ≤ T * c := Nat.mul_le_mul_right _ hj
      rw [Nat.add_mul, Nat.one_mul, Nat.mul_comm T c] at h1
      omega
    obtain ⟨v, hv⟩ := hcell (j * c + ch) hi
    refine ⟨v, ?_⟩
    unfold channelWindow
    rw [List.getElem?_map, List.getElem?_range hj]
    simp [hv])
  exact ⟨w, hw, by rw [hwl, hl]⟩

section FftExactFit

variable [Add α] [Div α] [OfNat α 2]

/-- C5, amended: for every channel count `c ≥ 1` and every buffer holding
exactly `sampleSize = c * FFT_BUFFER_SIZE` defined samples, with a transform
that writes `FFT_BUFFER_SIZE` values and a caller's frame of `FFT_BUFFER_SIZE`
floats, `Fft(out, FFT_BUFFER_SIZE)` returns `true`, leaves the buffer as it was,
and `out` is the running pairwise average of `c` transforms: a first transform,
then the transforms of the de-interleaved windows of the channels
`1, ..., c - 1` in turn, window `ch` being `buffer[ch], buffer[c + ch], ...`.
For `c = 1` the first transform is that of the channel-0 window and no
averaging step runs; for `c ≥ 2` nothing is stated on the frame the first
transform reads beyond its length. -/
theorem C5_Fft_exact_fit (T c : Nat) (hT : 0 < T) (hc : 1 ≤ c)
    (fft_perform : List α → List α)
    (hF : ∀ xs : List α, xs.length = T → (fft_perform xs).length = T)
    (s : Buffer α) (vals : List α) (out : List (Cell α))
    (hch : s.channels = c) (hsz : s.sampleSize = (c : Int) * T)
    (hv : vals.length = c * T) (hmem : s.mem.take (c * T) = vals.map some)
    (hout : out.length = T) :
    ∃ first out', first.length = T ∧
      (c = 1 → allDefined (channelWindow T c 0 s.mem) = some first) ∧
      (∀ ch, ch < c → ∃ w, allDefined (channelWindow T c ch s.mem) = some w ∧
        w.length = T) ∧
      s.Fft (T : Int) fft_perform out (T : Int) = some (true, s, out') ∧
      out' = (runningAverage (fft_perform first)
        ((List.range' 1 (c - 1)).map
          (fun ch => fft_perform ((allDefined (channelWindow T c ch s.mem)).getD [])))).map
            some := by
  have hT0 : (T : Int) ≠ 0 := by omega
  have hc0 : s.channels ≠ 0 := by omega
  have hcI : (c : Int) ≠ 0 := by omega
  have hq : s.sampleSize.tdiv s.channels = T := by
    rw [hsz, hch, Int.mul_tdiv_cancel_left _ hcI]
  have hguard : ¬ (s.sampleSize.tdiv s.channels < (T : Int) ∨ (T : Int) ≠ (T : Int)) := by
    rw [hq]
    simp
  have hcount : s.sampleSize.tdiv (T : Int) = c := by
    rw [hsz, Int.mul_tdiv_cancel _ hT0]
  have hTle : T ≤ c * T := Nat.le_mul_of_pos_left T hc
  obtain ⟨hlen, hcell⟩ := defined_start hv hmem
  have hpre : s.mem.take T = (vals.take T).map some := by
    have h1 : (s.mem.take (c * T)).take T = ((vals.map some).take T) := by rw [hmem]
    rw [List.take_take, Nat.min_eq_left hTle] at h1
    rw [h1, List.map_take]
  have hvl : (vals.take T).length = T := by
    rw [List.length_take]
    omega
  have hframe := readFrame_start s.mem (vals.take T) T hvl hpre
  have hwl := hF (vals.take T) hvl
  obtain ⟨D, hD, hDl, hDlay⟩ := deinterleave_layout T c hc s.mem hlen
  have hDd : ∀ p, p < c * T → ∃ v, D[p]? = some (some v) := by
    intro p hp
    obtain ⟨i, hi, rfl⟩ := dest_covers T c p hT hp
    obtain ⟨v, hv'⟩ := hcell i hi
    exact ⟨v, by rw [hDlay i hi]; simp [hv']⟩
  have hseg : ∀ i ∈ List.range' 1 (c - 1), ∃ frame,
      readFrame D ((i : Int) * (T : Int)) (T : Int) = some frame ∧ frame.length = T := by
    intro i hi
    have hic : i < c := by
      have := List.mem_range'_1.mp hi
      omega
    have hs : i * T + T ≤ c * T := by
      have : (i + 1) * T ≤ c * T := Nat.mul_le_mul_right _ hic
      rw [Nat.add_mul, Nat.one_mul] at this
      exact this
    have hcast : ((i : Int) * (T : Int)) = ((i * T : Nat) : Int) := by push_cast; rfl
    rw [hcast]
    exact readFrame_defined D (i * T) T (by omega) (fun j hj => hDd (i * T + j) (by omega))
  have hfirst : writeFrame out (fft_perform (vals.take T)) =
      some ((fft_perform (vals.take T)).map some) := by
    unfold writeFrame
    rw [if_pos (by omega), List.drop_of_length_le (by omega), List.append_nil]
  have hmap : (List.range' 1 (c - 1)).map (fun i => fft_perform (segmentFrame D T i)) =
      (List.range' 1 (c - 1)).map
        (fun ch => fft_perform ((allDefined (channelWindow T c ch s.mem)).getD [])) := by
    apply List.map_congr_left
    intro i hi
    have hic : i < c := by
      have := List.mem_range'_1.mp hi
      omega
    rw [segmentFrame_is_channelWindow T c i hic s.mem D hDl hDlay]
  refine ⟨vals.take T, _, hvl, ?_, fun ch hch' => channelWindow_defined T c ch hch' s.mem hcell,
    ?_, rfl⟩
  · intro h1
    subst h1
    have hvT : vals.take T = vals := List.take_of_length_le (by omega)
    rw [hvT] at hpre ⊢
    exact allDefined_eq_some.mpr (channelWindow_mono T s.mem vals (by omega) hpre)
  · unfold Buffer.Fft
    rw [if_neg hc0, if_neg hguard, if_neg hT0]
    simp only [hcount, hch, hD, hframe, hfirst, Int.toNat_ofNat]
    rcases Nat.eq_or_lt_of_le hc with h1 | h1
    · subst h1
      simp only [Nat.cast_one, gt_iff_lt, lt_self_iff_false, if_false, Nat.sub_self,
        List.range'_zero, List.foldlM_nil, List.map_nil]
      rfl
    · have hgt : (c : Int) > 1 := by omega
      have hnew : newFloatInt α (T : Int) = some (List.replicate T none) := by
        unfold newFloatInt
        rw [if_pos (by omega), Int.toNat_ofNat]
      rw [if_pos hgt]
      simp only [hnew]
      obtain ⟨scratch', hex⟩ := segments_exact T fft_perform hF D _ hseg
        (List.replicate T none) (by simp) (fft_perform (vals.take T)) hwl
      rw [hex, hmap]

end FftExactFit

/-- C5 amended, at the stereo buffer `stereoFour` (`0, 2, 4, 6`) with
`FFT_BUFFER_SIZE = 2` and the identity as transform: `c = 2`, one averaging step
with the channel-1 window `2, 6`. -/
theorem C5_Fft_exact_fit_witness :
    0 < 2 ∧ 1 ≤ 2 ∧ (∀ xs : List ℚ, xs.length = 2 → (id xs).length = 2) ∧
    stereoFour.channels = (2 : Nat) ∧ stereoFour.sampleSize = ((2 : Nat) : Int) * (2 : Nat) ∧
    ([0, 2, 4, 6] : List ℚ).length = 2 * 2 ∧
    stereoFour.mem.take (2 * 2) = ([0, 2, 4, 6] : List ℚ).map some ∧
    ([none, none] : List (Cell ℚ)).length = 2 ∧
    allDefined (channelWindow 2 2 1 stereoFour.mem) = some [2, 6] ∧
    ∃ first out', first.length = 2 ∧
      (2 = 1 → allDefined (channelWindow 2 2 0 stereoFour.mem) = some first) ∧
      (∀ ch, ch < 2 → ∃ w, allDefined (channelWindow 2 2 ch stereoFour.mem) = some w ∧
        w.length = 2) ∧
      stereoFour.Fft ((2 : Nat) : Int) id [none, none] ((2 : Nat) : Int) =
        some (true, stereoFour, out') ∧
      out' = (runningAverage (id first)
        ((List.range' 1 (2 - 1)).map
          (fun ch => id ((allDefined (channelWindow 2 2 ch stereoFour.mem)).getD [])))).map
            some :=
  ⟨by decide, by decide, fun _ h => h, by decide, by decide, by decide, by decide, by decide,
    by decide,
    C5_Fft_exact_fit 2 2 (by decide) (by decide) id (fun _ h => h) stereoFour [0, 2, 4, 6]
      [none, none] (by decide) (by decide) (by decide) (by decide) (by decide)⟩

/-- C5 as stated fails for two channels: on the stereo buffer `stereoFour`
(`sampleSize = 2 * FFT_BUFFER_SIZE` with `FFT_BUFFER_SIZE = 2`, identity as
transform) the channel-0 window is `0, 4`, yet `Fft` returns `true` with
`out = 1, 4`: the average of the transform of `buffer[0 .. 2) = 0, 2` and the
transform of the channel-1 window `2, 6`. -/
theorem C5_stereo_output_is_an_average :
    stereoFour.channels = 2 ∧ stereoFour.sampleSize = 2 * 2 ∧
    allDefined (channelWindow 2 2 0 stereoFour.mem) = some [0, 4] ∧
    stereoFour.Fft 2 id [none, none] 2 = some (true, stereoFour, [some 1, some 4]) ∧
    stereoFour.Fft 2 id [none, none] 2 ≠
      some (true, stereoFour, (id ([0, 4] : List ℚ)).map some) := by
  have h : stereoFour.Fft 2 id [none, none] 2 =
      some (true, stereoFour, [some ((2 + 0) / 2), some ((6 + 2) / 2)]) := by
    rfl
  have e1 : ((2 : ℚ) + 0) / 2 = 1 := by norm_num
  have e2 : ((6 : ℚ) + 2) / 2 = 4 := by norm_num
  rw [e1, e2] at h
  refine ⟨by decide, by decide, by decide, h, ?_⟩
  rw [h]
  decide
